import Mathlib

/-!
# User validation and normalisation (`public/tools/user_validator.go`)

A shallow embedding of the user validator of the LDAP admin tool, together with the part of
the Go standard library it calls.

Go strings are byte sequences, so a string is a list of bytes.  The library functions that
look at characters (`strings.TrimSpace`, `strings.ToLower`, the `regexp` engine) decode UTF-8
the way Go does: an invalid byte is the rune `U+FFFD` of width one.

The Unicode case table (`unicode.CaseRanges`) is a parameter `tbl : Nat → Nat`: the lower case
of a rune above `U+007F`.
-/

set_option autoImplicit false

/-! ## Go strings and UTF-8 -/

namespace Go

/-- One byte of a Go string. -/
abbrev Byte := Fin 256

/-- A Go `string`: an immutable sequence of bytes. -/
abbrev GoString := List Byte

/-- Conversion `byte(n)`: the low eight bits of `n`. -/
def byte (n : Nat) : Byte := ⟨n % 256, Nat.mod_lt n (by decide)⟩

namespace utf8

/-- The rune `utf8.RuneError`, U+FFFD. -/
def RuneError : Nat := 0xFFFD

/-- Bytes below `utf8.RuneSelf` are single-byte runes. -/
def RuneSelf : Nat := 0x80

/-- The rune `utf8.MaxRune`. -/
def MaxRune : Nat := 0x10FFFF

/-- Number of bytes of the sequence introduced by the non-ASCII leading byte `s0`
(the low three bits of the entry of Go's table `first`). -/
def seqSize (s0 : Nat) : Nat := if s0 < 0xE0 then 2 else if s0 < 0xF0 then 3 else 4

/-- Lowest second byte accepted after the leading byte `s0` (Go's `acceptRanges`). -/
def acceptLo (s0 : Nat) : Nat := if s0 = 0xE0 then 0xA0 else if s0 = 0xF0 then 0x90 else 0x80

/-- Highest second byte accepted after the leading byte `s0` (Go's `acceptRanges`). -/
def acceptHi (s0 : Nat) : Nat := if s0 = 0xED then 0x9F else if s0 = 0xF4 then 0x8F else 0xBF

/-- The function `utf8.DecodeRuneInString`: first rune of `s` and its width in bytes.  An empty
string gives `(RuneError, 0)`, an invalid encoding `(RuneError, 1)`.  A mask `b & 0x3F` is
`b % 64` and the shifts and ors assemble disjoint bit fields, hence the sums of products. -/
def DecodeRuneInString (s : GoString) : Nat × Nat :=
  match s with
  | [] => (RuneError, 0)
  | s0 :: t =>
    if s0.val < RuneSelf then (s0.val, 1)
    else if s0.val < 0xC2 ∨ 0xF4 < s0.val then (RuneError, 1)
    else
      let sz := seqSize s0.val
      if s.length < sz then (RuneError, 1)
      else
        match t with
        | [] => (RuneError, 1)
        | s1 :: t1 =>
          if s1.val < acceptLo s0.val ∨ acceptHi s0.val < s1.val then (RuneError, 1)
          else if sz ≤ 2 then ((s0.val % 32) * 64 + s1.val % 64, 2)
          else
            match t1 with
            | [] => (RuneError, 1)
            | s2 :: t2 =>
              if s2.val < 0x80 ∨ 0xBF < s2.val then (RuneError, 1)
              else if sz ≤ 3 then
                ((s0.val % 16) * 4096 + (s1.val % 64) * 64 + s2.val % 64, 3)
              else
                match t2 with
                | [] => (RuneError, 1)
                | s3 :: _ =>
                  if s3.val < 0x80 ∨ 0xBF < s3.val then (RuneError, 1)
                  else
                    ((s0.val % 8) * 262144 + (s1.val % 64) * 4096 + (s2.val % 64) * 64
                      + s3.val % 64, 4)

/-- The function `utf8.RuneStart`: the byte is not a continuation byte. -/
def RuneStart (b : Byte) : Bool := decide (b.val / 64 ≠ 2)

/-- The loop of `utf8.DecodeLastRuneInString` that walks `start` down to the limit `lim`
looking for the first byte of a rune. -/
def scanRuneStart (s : GoString) (lim : Int) : Nat → Int → Int
  | 0, start => start
  | fuel + 1, start =>
    if start < lim then start
    else if RuneStart (s.getD start.toNat 0) then start
    else scanRuneStart s lim fuel (start - 1)

/-- The function `utf8.DecodeLastRuneInString`: last rune of `s` and its width in bytes. -/
def DecodeLastRuneInString (s : GoString) : Nat × Nat :=
  let stop := s.length
  if stop = 0 then (RuneError, 0)
  else
    let r := (s.getD (stop - 1) 0).val
    if r < RuneSelf then (r, 1)
    else
      let lim : Int := if (stop : Int) - 4 < 0 then 0 else (stop : Int) - 4
      let start0 := scanRuneStart s lim 5 ((stop : Int) - 2)
      let start := if start0 < 0 then 0 else start0.toNat
      let (r1, size) := DecodeRuneInString (s.drop start)
      if start + size ≠ stop then (RuneError, 1) else (r1, size)

/-- The function `utf8.RuneLen`: bytes needed to encode the rune, `-1` if it is not valid. -/
def RuneLen (r : Nat) : Int :=
  if r ≤ 0x7F then 1
  else if r ≤ 0x7FF then 2
  else if 0xD800 ≤ r ∧ r ≤ 0xDFFF then -1
  else if r ≤ 0xFFFF then 3
  else if r ≤ MaxRune then 4
  else -1

/-- The function `utf8.AppendRune` on an empty buffer (what `strings.Builder.WriteRune`
appends): the UTF-8 encoding of `r`, that of `RuneError` when `r` is out of range or a
surrogate. -/
def EncodeRune (r : Nat) : GoString :=
  if r ≤ 0x7F then [byte r]
  else if r ≤ 0x7FF then [byte (0xC0 + r / 64), byte (0x80 + r % 64)]
  else if MaxRune < r ∨ (0xD800 ≤ r ∧ r ≤ 0xDFFF) then [0xEF, 0xBF, 0xBD]
  else if r ≤ 0xFFFF then
    [byte (0xE0 + r / 4096), byte (0x80 + (r / 64) % 64), byte (0x80 + r % 64)]
  else
    [byte (0xF0 + r / 262144), byte (0x80 + (r / 4096) % 64), byte (0x80 + (r / 64) % 64),
      byte (0x80 + r % 64)]

/-- The runes a `for _, r := range s` loop (and the `regexp` input reader) sees, with `fuel`
bounding the number of runes. -/
def runesAux : Nat → GoString → List Nat
  | 0, _ => []
  | fuel + 1, s =>
    match s with
    | [] => []
    | _ :: _ => (DecodeRuneInString s).1 :: runesAux fuel (s.drop (DecodeRuneInString s).2)

/-- The runes of `s`; every rune takes at least one byte, so `s.length` is enough fuel. -/
def runes (s : GoString) : List Nat := runesAux s.length s

end utf8

/-- The bytes of a Lean string literal, as the Go compiler stores a string literal. -/
def str (s : String) : GoString := (s.data.map fun c => utf8.EncodeRune c.toNat).flatten

/-- The call `fmt.Sprintf("%s@%s", a, b)`. -/
def sprintfAt (a b : GoString) : GoString := a ++ [0x40] ++ b

namespace unicode

/-- The function `unicode.IsSpace`: the Latin-1 spaces, then the `White_Space` table. -/
def IsSpace (r : Nat) : Bool :=
  if r ≤ 0xFF then
    r = 0x09 || r = 0x0A || r = 0x0B || r = 0x0C || r = 0x0D || r = 0x20 || r = 0x85 || r = 0xA0
  else
    r = 0x1680 || (0x2000 ≤ r && r ≤ 0x200A) || r = 0x2028 || r = 0x2029 || r = 0x202F
      || r = 0x205F || r = 0x3000

/-- The function `unicode.ToLower`: ASCII is handled in place, any other rune goes through
the case table `tbl`. -/
def ToLower (tbl : Nat → Nat) (r : Nat) : Nat :=
  if r ≤ 0x7F then (if 0x41 ≤ r ∧ r ≤ 0x5A then r + 0x20 else r) else tbl r

end unicode

namespace strings

/-- The table `asciiSpace` of package `strings`. -/
def asciiSpace (c : Byte) : Bool :=
  c = 0x09 || c = 0x0A || c = 0x0B || c = 0x0C || c = 0x0D || c = 0x20

/-- The function `strings.TrimLeftFunc`: drop leading runes satisfying `f`; `fuel` bounds the
number of runes. -/
def trimLeftFuncAux (f : Nat → Bool) : Nat → GoString → GoString
  | 0, s => s
  | fuel + 1, s =>
    match s with
    | [] => []
    | _ :: _ =>
      if f (utf8.DecodeRuneInString s).1 then
        trimLeftFuncAux f fuel (s.drop (utf8.DecodeRuneInString s).2)
      else s

/-- The function `strings.TrimLeftFunc`. -/
def TrimLeftFunc (s : GoString) (f : Nat → Bool) : GoString := trimLeftFuncAux f s.length s

/-- The function `lastIndexFunc` of package `strings`, from the end `i` downwards: index of
the last rune `r` with `f r = truth`, or `-1`. -/
def lastIndexFuncAux (f : Nat → Bool) (truth : Bool) (s : GoString) : Nat → Nat → Int
  | 0, _ => -1
  | fuel + 1, i =>
    if i = 0 then -1
    else
      let d := utf8.DecodeLastRuneInString (s.take i)
      if f d.1 = truth then ((i - d.2 : Nat) : Int)
      else lastIndexFuncAux f truth s fuel (i - d.2)

/-- The function `strings.TrimRightFunc`. -/
def TrimRightFunc (s : GoString) (f : Nat → Bool) : GoString :=
  let i := lastIndexFuncAux f false s s.length s.length
  if 0 ≤ i ∧ utf8.RuneSelf ≤ (s.getD i.toNat 0).val then
    s.take (i.toNat + (utf8.DecodeRuneInString (s.drop i.toNat)).2)
  else s.take (i + 1).toNat

/-- The function `strings.TrimFunc`. -/
def TrimFunc (s : GoString) (f : Nat → Bool) : GoString := TrimRightFunc (TrimLeftFunc s f) f

/-- Second loop of `strings.TrimSpace`, on the reversed remainder: strip ASCII spaces from
the end, and hand over to `TrimRightFunc` at the first non-ASCII byte. -/
def trimSpaceRight (body : GoString) : GoString → GoString
  | [] => []
  | c :: rest =>
    if utf8.RuneSelf ≤ c.val then TrimRightFunc body unicode.IsSpace
    else if asciiSpace c then trimSpaceRight body.dropLast rest
    else body

/-- First loop of `strings.TrimSpace`: strip ASCII spaces from the start, and hand over to
`TrimFunc` at the first non-ASCII byte. -/
def trimSpaceLeft : GoString → GoString
  | [] => []
  | c :: rest =>
    if utf8.RuneSelf ≤ c.val then TrimFunc (c :: rest) unicode.IsSpace
    else if asciiSpace c then trimSpaceLeft rest
    else trimSpaceRight (c :: rest) (c :: rest).reverse

/-- The function `strings.TrimSpace`. -/
def TrimSpace (s : GoString) : GoString := trimSpaceLeft s

/-- The call `strings.ReplaceAll(s, old, new)` for a one-byte `old`: every occurrence of the
byte is replaced. -/
def ReplaceAll (s : GoString) (old : Byte) (new : GoString) : GoString :=
  match s with
  | [] => []
  | c :: rest => (if c = old then new else [c]) ++ ReplaceAll rest old new

/-- The call `strings.Split(s, sep)` for a one-byte `sep`: the pieces between the
occurrences of the byte, one more than there are occurrences. -/
def Split (s : GoString) (sep : Byte) : List GoString :=
  match s with
  | [] => [[]]
  | c :: rest =>
    if c = sep then [] :: Split rest sep
    else
      match Split rest sep with
      | [] => [[c]]
      | p :: ps => (c :: p) :: ps

/-- Second loop of `strings.Map`: every remaining rune is mapped and encoded again. -/
def mapTail (mapping : Nat → Nat) : Nat → GoString → GoString
  | 0, _ => []
  | fuel + 1, s =>
    match s with
    | [] => []
    | _ :: _ =>
      utf8.EncodeRune (mapping (utf8.DecodeRuneInString s).1)
        ++ mapTail mapping fuel (s.drop (utf8.DecodeRuneInString s).2)

/-- First loop of `strings.Map`: skip the runes the mapping leaves alone (`done` holds the
bytes skipped so far); at the first rune that changes, or the first invalid byte, write the
skipped bytes and the mapped rune and go on with the second loop. -/
def mapHead (mapping : Nat → Nat) : Nat → GoString → GoString → GoString
  | 0, done, s => done ++ s
  | fuel + 1, done, s =>
    match s with
    | [] => done
    | _ :: _ =>
      let c := (utf8.DecodeRuneInString s).1
      let w := (utf8.DecodeRuneInString s).2
      let r := mapping c
      if r = c ∧ c ≠ utf8.RuneError then mapHead mapping fuel (done ++ s.take w) (s.drop w)
      else if c = utf8.RuneError ∧ w ≠ 1 ∧ r = c then
        mapHead mapping fuel (done ++ s.take w) (s.drop w)
      else
        let width := if c = utf8.RuneError then w else (utf8.RuneLen c).toNat
        done ++ utf8.EncodeRune r ++ mapTail mapping fuel (s.drop width)

/-- The function `strings.Map` for a mapping that never returns a negative rune. -/
def Map (mapping : Nat → Nat) (s : GoString) : GoString := mapHead mapping s.length [] s

/-- The function `strings.ToLower`: a byte-wise fast path for ASCII-only strings, otherwise
`Map(unicode.ToLower, s)`. -/
def ToLower (tbl : Nat → Nat) (s : GoString) : GoString :=
  if s.all (fun c => c.val < utf8.RuneSelf) then
    if s.any (fun c => 0x41 ≤ c.val ∧ c.val ≤ 0x5A) then
      s.map fun c => if 0x41 ≤ c.val ∧ c.val ≤ 0x5A then byte (c.val + 0x20) else c
    else s
  else Map (unicode.ToLower tbl) s

end strings

namespace regexp

/-- A character class `[...]`: inclusive rune ranges, complemented when `negated`.  With the
flags of `regexp.MustCompile` a negated class also matches a newline. -/
structure CharClass where
  /-- The class is written `[^...]`. -/
  negated : Bool
  /-- The ranges `lo-hi` listed in the class. -/
  ranges : List (Nat × Nat)

/-- The rune belongs to the class. -/
def CharClass.matchRune (c : CharClass) (r : Nat) : Bool :=
  (c.ranges.any fun p => decide (p.1 ≤ r ∧ r ≤ p.2)) != c.negated

/-- Regular expressions over runes, as far as the patterns of this package need them. -/
inductive Regex where
  /-- Matches no string. -/
  | empty : Regex
  /-- Matches the empty string. -/
  | eps : Regex
  /-- One rune of a character class. -/
  | cls : CharClass → Regex
  /-- One literal rune. -/
  | lit : Nat → Regex
  /-- Concatenation. -/
  | cat : Regex → Regex → Regex
  /-- Alternation. -/
  | alt : Regex → Regex → Regex
  /-- Repetition `x*`. -/
  | star : Regex → Regex

/-- Repetition `x+`. -/
def Regex.plus (r : Regex) : Regex := Regex.cat r (Regex.star r)

/-- Repetition `x{n,}`: `n` copies of `x`, then `x*`. -/
def Regex.repeatMin : Nat → Regex → Regex
  | 0, r => Regex.star r
  | n + 1, r => Regex.cat r (Regex.repeatMin n r)

/-- The expression matches the empty string. -/
def Regex.nullable : Regex → Bool
  | Regex.empty => false
  | Regex.eps => true
  | Regex.cls _ => false
  | Regex.lit _ => false
  | Regex.cat a b => a.nullable && b.nullable
  | Regex.alt a b => a.nullable || b.nullable
  | Regex.star _ => true

/-- Derivative of the expression by the rune `x`: what may follow after reading `x`. -/
def Regex.deriv : Regex → Nat → Regex
  | Regex.empty, _ => Regex.empty
  | Regex.eps, _ => Regex.empty
  | Regex.cls c, x => if c.matchRune x then Regex.eps else Regex.empty
  | Regex.lit a, x => if a = x then Regex.eps else Regex.empty
  | Regex.cat a b, x =>
    if a.nullable then Regex.alt (Regex.cat (a.deriv x) b) (b.deriv x)
    else Regex.cat (a.deriv x) b
  | Regex.alt a b, x => Regex.alt (a.deriv x) (b.deriv x)
  | Regex.star a, x => Regex.cat (a.deriv x) (Regex.star a)

/-- The whole rune sequence matches the expression. -/
def Regex.matchRunes (re : Regex) : List Nat → Bool
  | [] => re.nullable
  | x :: xs => (re.deriv x).matchRunes xs

/-- The language of an expression: the rune sequences it denotes.  A repetition denotes the
concatenations of non-empty pieces of its body. -/
def Regex.Lang : Regex → List Nat → Prop
  | Regex.empty, _ => False
  | Regex.eps, xs => xs = []
  | Regex.cls c, xs => ∃ x, xs = [x] ∧ c.matchRune x = true
  | Regex.lit a, xs => xs = [a]
  | Regex.cat a b, xs => ∃ u v, xs = u ++ v ∧ Regex.Lang a u ∧ Regex.Lang b v
  | Regex.alt a b, xs => Regex.Lang a xs ∨ Regex.Lang b xs
  | Regex.star a, xs =>
    ∃ parts : List (List Nat), xs = parts.flatten ∧ ∀ p ∈ parts, p ≠ [] ∧ Regex.Lang a p

/-- The method `MatchString` of a pattern `^re$` (no flags, so `$` is the end of the text):
the runes of the whole string match `re`. -/
def MatchString (re : Regex) (s : GoString) : Bool := re.matchRunes (utf8.runes s)

/-- The method `ReplaceAllString` of a pattern that is one character class, with a
replacement free of `$`: every rune of the class is replaced, the other runes are copied
byte for byte; `fuel` bounds the number of runes. -/
def replaceAllAux (c : CharClass) (repl : GoString) : Nat → GoString → GoString
  | 0, _ => []
  | fuel + 1, s =>
    match s with
    | [] => []
    | _ :: _ =>
      (if c.matchRune (utf8.DecodeRuneInString s).1 then repl
        else s.take (utf8.DecodeRuneInString s).2)
        ++ replaceAllAux c repl fuel (s.drop (utf8.DecodeRuneInString s).2)

/-- The method `ReplaceAllString` of a one-class pattern. -/
def ReplaceAllString (c : CharClass) (src repl : GoString) : GoString :=
  replaceAllAux c repl src.length src

end regexp

end Go

/-! ## Package `tools`: the user validator -/

namespace tools

open Go

/-- Modelled from the spec: the record `model.User` of package `model`, which is not among the
sources; the validator reads and writes only its username, mobile number and mail. -/
structure User where
  /-- Login name. -/
  Username : GoString
  /-- Phone number, used for its last four bytes. -/
  Mobile : GoString
  /-- Mail address. -/
  Mail : GoString
  deriving DecidableEq

/-- The class `[A-Za-z0-9._%-]` of `emailRegex`. -/
def emailLocalClass : regexp.CharClass :=
  ⟨false, [(0x41, 0x5A), (0x61, 0x7A), (0x30, 0x39), (0x2E, 0x2E), (0x5F, 0x5F), (0x25, 0x25),
    (0x2D, 0x2D)]⟩

/-- The class `[A-Za-z0-9.-]` of `emailRegex`. -/
def emailDomainClass : regexp.CharClass :=
  ⟨false, [(0x41, 0x5A), (0x61, 0x7A), (0x30, 0x39), (0x2E, 0x2E), (0x2D, 0x2D)]⟩

/-- The class `[A-Za-z]` of `emailRegex`. -/
def emailTldClass : regexp.CharClass := ⟨false, [(0x41, 0x5A), (0x61, 0x7A)]⟩

/-- The pattern `^[A-Za-z0-9._%-]+@[A-Za-z0-9.-]+\.[A-Za-z]{2,}$`, anchors left to
`MatchString`. -/
def emailRegex : regexp.Regex :=
  .cat (.plus (.cls emailLocalClass))
    (.cat (.lit 0x40)
      (.cat (.plus (.cls emailDomainClass))
        (.cat (.lit 0x2E) (.repeatMin 2 (.cls emailTldClass)))))

/-- The pattern `[^A-Za-z0-9.\-_]`. -/
def emailLocalPartCleanRegex : regexp.CharClass :=
  ⟨true, [(0x41, 0x5A), (0x61, 0x7A), (0x30, 0x39), (0x2E, 0x2E), (0x2D, 0x2D), (0x5F, 0x5F)]⟩

/-- The function `GetPhoneLast4Digits`: the last four bytes of the trimmed phone number, the
empty string when it has fewer than four. -/
def GetPhoneLast4Digits (phone : GoString) : GoString :=
  let phone := strings.TrimSpace phone
  if phone.length < 4 then [] else phone.drop (phone.length - 4)

/-- The function `SanitizeEmailLocalPart`: delete what `emailLocalPartCleanRegex` matches. -/
def SanitizeEmailLocalPart (localPart : GoString) : GoString :=
  regexp.ReplaceAllString emailLocalPartCleanRegex localPart []

/-- The function `ValidateEmail`. -/
def ValidateEmail (email : GoString) : Bool := regexp.MatchString emailRegex email

/-- The function `NormalizeEmail`. -/
def NormalizeEmail (email username defaultDomain : GoString) : GoString :=
  if email = [] then sprintfAt username defaultDomain
  else
    match strings.Split email 0x40 with
    | [localPart, domain] =>
      let cleanedLocalPart := SanitizeEmailLocalPart localPart
      let cleaned :=
        if cleanedLocalPart = [] then (username, defaultDomain) else (cleanedLocalPart, domain)
      let normalizedEmail := sprintfAt cleaned.1 cleaned.2
      if !ValidateEmail normalizedEmail then sprintfAt username defaultDomain
      else normalizedEmail
    | _ => sprintfAt username defaultDomain

/-- The function `GenerateUniqueUsername`: the final username and whether a suffix was
appended. -/
def GenerateUniqueUsername (tbl : Nat → Nat) (baseUsername phone : GoString)
    (checkExists : GoString → Bool) : GoString × Bool :=
  let baseUsername := strings.ToLower tbl (strings.ReplaceAll baseUsername 0x20 [])
  if !checkExists baseUsername then (baseUsername, false)
  else
    let last4 := GetPhoneLast4Digits phone
    if last4 = [] then (baseUsername, false)
    else (baseUsername ++ last4, true)

/-- The function `ValidateAndNormalizeUser`: the record after the call and the error it
returns (`none` is Go's `nil`). -/
def ValidateAndNormalizeUser (tbl : Nat → Nat) (user : User) (defaultEmailDomain : GoString)
    (checkExists : GoString → Bool) : User × Option GoString :=
  let gen := GenerateUniqueUsername tbl user.Username user.Mobile checkExists
  let finalUsername := gen.1
  let modified := gen.2
  let originalEmail := user.Mail
  let needsEmailUpdate :=
    if originalEmail ≠ [] then
      match strings.Split originalEmail 0x40 with
      | [part0, _] => if SanitizeEmailLocalPart part0 ≠ part0 then true else modified
      | _ => modified
    else modified
  if needsEmailUpdate ∨ originalEmail = [] then
    (⟨finalUsername, user.Mobile, sprintfAt finalUsername defaultEmailDomain⟩, none)
  else
    (⟨finalUsername, user.Mobile, NormalizeEmail originalEmail finalUsername defaultEmailDomain⟩,
      none)

end tools

/-! ## Notions of the library model the proofs are stated with -/

namespace Go

/-- The function `utf8.ValidRune`: the rune can be encoded, that is, it is at most `MaxRune`
and not a surrogate half. -/
def utf8.ValidRune (r : Nat) : Bool := decide (r ≤ utf8.MaxRune ∧ ¬ (0xD800 ≤ r ∧ r ≤ 0xDFFF))

/-- What the properties below need of the case table, and what holds of the table of the Go
library: the lower case of a valid rune above U+007F is a valid rune, is not the space
U+0020, and is its own lower case. -/
def unicode.LowerTable (tbl : Nat → Nat) : Prop :=
  ∀ r, 0x80 ≤ r → utf8.ValidRune r = true →
    utf8.ValidRune (tbl r) = true ∧ tbl r ≠ 0x20 ∧ unicode.ToLower tbl (tbl r) = tbl r

/-- The bytes `chunk` are one rune that `mapping` leaves alone, whatever follows them: the
first loop of `strings.Map` steps over them. -/
def strings.FixedRune (mapping : Nat → Nat) (chunk : GoString) : Prop :=
  chunk ≠ [] ∧ ∀ rest : GoString,
    (utf8.DecodeRuneInString (chunk ++ rest)).2 = chunk.length ∧
      mapping (utf8.DecodeRuneInString (chunk ++ rest)).1
        = (utf8.DecodeRuneInString (chunk ++ rest)).1 ∧
      ((utf8.DecodeRuneInString (chunk ++ rest)).1 = utf8.RuneError → chunk.length ≠ 1)

end Go

/-! ## Notions the properties are stated with -/

namespace tools

open Go

/-- An accepted local-part character: an ASCII letter, an ASCII digit, `.`, `-` or `_`. -/
def isAcceptedLocalRune (r : Nat) : Bool :=
  (decide (0x41 ≤ r) && decide (r ≤ 0x5A)) || (decide (0x61 ≤ r) && decide (r ≤ 0x7A))
    || (decide (0x30 ≤ r) && decide (r ≤ 0x39)) || decide (r = 0x2E) || decide (r = 0x2D)
    || decide (r = 0x5F)

/-- The local-part of an address: the text before its first `@`. -/
def localPart (email : GoString) : GoString := email.takeWhile fun b => decide (b ≠ 0x40)

/-- The default mail domain of the test-suite, `hzxb.com`. -/
def hzxb : GoString := str "hzxb.com"

/-- An existence check over a store that holds exactly one username. -/
def taken (name : GoString) : GoString → Bool := fun n => decide (n = name)

/-- An existence check over an empty store. -/
def nobody : GoString → Bool := fun _ => false

/-- A fragment of the Unicode case table, enough for Latin-1: the capital letters
U+00C0 to U+00DE other than the multiplication sign U+00D7 have their lower case 32 places
further; no other rune is changed. -/
def latin1CaseTable (r : Nat) : Nat := if 0xC0 ≤ r ∧ r ≤ 0xDE ∧ r ≠ 0xD7 then r + 0x20 else r

/-- A local-part character of the email grammar: an ASCII letter, a digit, `.`, `_`, `%`
or `-`. -/
def isGrammarLocalRune (r : Nat) : Bool :=
  (decide (0x41 ≤ r) && decide (r ≤ 0x5A)) || (decide (0x61 ≤ r) && decide (r ≤ 0x7A))
    || (decide (0x30 ≤ r) && decide (r ≤ 0x39)) || decide (r = 0x2E) || decide (r = 0x5F)
    || decide (r = 0x25) || decide (r = 0x2D)

/-- A domain character of the email grammar: an ASCII letter, a digit, `.` or `-`. -/
def isGrammarDomainRune (r : Nat) : Bool :=
  (decide (0x41 ≤ r) && decide (r ≤ 0x5A)) || (decide (0x61 ≤ r) && decide (r ≤ 0x7A))
    || (decide (0x30 ≤ r) && decide (r ≤ 0x39)) || decide (r = 0x2E) || decide (r = 0x2D)

/-- An ASCII letter. -/
def isAsciiLetter (r : Nat) : Bool :=
  (decide (0x41 ≤ r) && decide (r ≤ 0x5A)) || (decide (0x61 ≤ r) && decide (r ≤ 0x7A))

/-- The email grammar of the specification: `local "@" domain "." tld` with one or more
local-part characters, one or more domain characters and two or more letters. -/
def IsGrammarEmail (e : GoString) : Prop :=
  ∃ l d t : GoString, e = l ++ [0x40] ++ d ++ [0x2E] ++ t ∧
    (l ≠ [] ∧ ∀ b ∈ l, isGrammarLocalRune b.val = true) ∧
    (d ≠ [] ∧ ∀ b ∈ d, isGrammarDomainRune b.val = true) ∧
    (2 ≤ t.length ∧ ∀ b ∈ t, isAsciiLetter b.val = true)

/-- The part of an address after its first `@` (empty when there is none). -/
def afterAt (email : GoString) : GoString := (email.dropWhile fun b => decide (b ≠ 0x40)).drop 1

/-- The string ends in a `.` followed by at least two ASCII letters. -/
def EndsInDotLetters (s : GoString) : Prop :=
  ∃ pre t : GoString, s = pre ++ [0x2E] ++ t ∧ 2 ≤ t.length ∧ ∀ b ∈ t, isAsciiLetter b.val = true

/-- Number of characters (runes) of a string. -/
def charCount (s : GoString) : Nat := (utf8.runes s).length

/-- The last `n` characters (runes) of a string, all of them when it has fewer. -/
def lastChars (n : Nat) (s : GoString) : GoString :=
  (((utf8.runes s).drop ((utf8.runes s).length - n)).map utf8.EncodeRune).flatten

end tools

/-! ## The Go library model: UTF-8 decoding and encoding -/

namespace Go
open utf8

theorem decode_ascii (s0 : Byte) (t : GoString) (h : s0.val < 0x80) :
    DecodeRuneInString (s0 :: t) = (s0.val, 1) := by
  simp [DecodeRuneInString, RuneSelf, h]

theorem decode_width (s0 : Byte) (t : GoString) :
    1 ≤ (DecodeRuneInString (s0 :: t)).2 ∧
      (DecodeRuneInString (s0 :: t)).2 ≤ (s0 :: t).length := by
  unfold DecodeRuneInString
  dsimp only
  repeat' split
  all_goals simp only [List.length_cons] 
  all_goals omega

theorem decode_nonascii (s0 : Byte) (t : GoString) (h : 0x80 ≤ s0.val) :
    0x80 ≤ (DecodeRuneInString (s0 :: t)).1 ∧
      ∀ b ∈ (s0 :: t).take (DecodeRuneInString (s0 :: t)).2, 0x80 ≤ b.val := by
  unfold DecodeRuneInString
  dsimp only
  repeat' split
  all_goals simp only [RuneError, RuneSelf, acceptLo, acceptHi, seqSize, List.take_succ_cons, List.take_zero,
    List.mem_cons, List.mem_singleton, forall_eq_or_imp, forall_eq, List.not_mem_nil, false_imp_iff, implies_true, and_true] at *
  all_goals first | omega | (split_ifs at * <;> omega)

theorem byte_val (n : Nat) : (byte n).val = n % 256 := rfl

theorem encodeRune_ne_nil (r : Nat) : EncodeRune r ≠ [] := by
  unfold EncodeRune
  split_ifs <;> simp

theorem encodeRune_bytes (r : Nat) (b : Byte) (hb : b ∈ EncodeRune r) :
    (r ≤ 0x7F ∧ b.val = r) ∨ 0x80 ≤ b.val := by
  unfold EncodeRune at hb
  split_ifs at hb with h1 h2 h3 h4
  · left
    simp only [List.mem_singleton] at hb
    subst hb
    rw [byte_val]
    exact ⟨h1, by omega⟩
  · right
    simp only [List.mem_cons, List.mem_singleton, List.not_mem_nil, or_false] at hb
    rcases hb with rfl | rfl <;> rw [byte_val] <;> omega
  · right
    simp only [List.mem_cons, List.mem_singleton, List.not_mem_nil, or_false] at hb
    rcases hb with rfl | rfl | rfl <;> decide
  · right
    simp only [List.mem_cons, List.mem_singleton, List.not_mem_nil, or_false] at hb
    rcases hb with rfl | rfl | rfl <;> rw [byte_val] <;> omega
  · right
    simp only [List.mem_cons, List.mem_singleton, List.not_mem_nil, or_false, MaxRune,
      not_or, not_lt] at hb h3
    rcases hb with rfl | rfl | rfl | rfl <;> rw [byte_val] <;> omega

theorem decode_valid (s : GoString) :
    (DecodeRuneInString s).1 ≤ MaxRune ∧
      ¬ (0xD800 ≤ (DecodeRuneInString s).1 ∧ (DecodeRuneInString s).1 ≤ 0xDFFF) := by
  unfold DecodeRuneInString
  dsimp only
  repeat' split
  all_goals simp only [RuneError, RuneSelf, MaxRune, acceptLo, acceptHi, seqSize] at *
  all_goals first | omega | (split_ifs at * <;> omega)

theorem decode_two (s0 s1 : Byte) (rest : GoString)
    (h0 : 0xC2 ≤ s0.val ∧ s0.val ≤ 0xDF) (h1 : 0x80 ≤ s1.val ∧ s1.val ≤ 0xBF) :
    DecodeRuneInString (s0 :: s1 :: rest) = ((s0.val % 32) * 64 + s1.val % 64, 2) := by
  unfold DecodeRuneInString
  simp only [RuneSelf, seqSize, acceptLo, acceptHi, List.length_cons]
  rw [if_neg (by omega), if_neg (by omega), if_neg (by split_ifs <;> omega),
    if_neg (by split_ifs <;> omega), if_pos (by split_ifs <;> omega)]

theorem decode_three (s0 s1 s2 : Byte) (rest : GoString)
    (h0 : 0xE0 ≤ s0.val ∧ s0.val ≤ 0xEF)
    (h1 : acceptLo s0.val ≤ s1.val ∧ s1.val ≤ acceptHi s0.val)
    (h2 : 0x80 ≤ s2.val ∧ s2.val ≤ 0xBF) :
    DecodeRuneInString (s0 :: s1 :: s2 :: rest) =
      ((s0.val % 16) * 4096 + (s1.val % 64) * 64 + s2.val % 64, 3) := by
  unfold DecodeRuneInString
  simp only [RuneSelf, seqSize, List.length_cons]
  rw [if_neg (by omega), if_neg (by omega), if_neg (by split_ifs <;> omega), if_neg (by omega),
    if_neg (by split_ifs <;> omega), if_neg (by omega), if_pos (by split_ifs <;> omega)]

theorem decode_four (s0 s1 s2 s3 : Byte) (rest : GoString)
    (h0 : 0xF0 ≤ s0.val ∧ s0.val ≤ 0xF4)
    (h1 : acceptLo s0.val ≤ s1.val ∧ s1.val ≤ acceptHi s0.val)
    (h2 : 0x80 ≤ s2.val ∧ s2.val ≤ 0xBF) (h3 : 0x80 ≤ s3.val ∧ s3.val ≤ 0xBF) :
    DecodeRuneInString (s0 :: s1 :: s2 :: s3 :: rest) =
      ((s0.val % 8) * 262144 + (s1.val % 64) * 4096 + (s2.val % 64) * 64 + s3.val % 64, 4) := by
  unfold DecodeRuneInString
  simp only [RuneSelf, seqSize, List.length_cons]
  rw [if_neg (by omega), if_neg (by omega), if_neg (by split_ifs <;> omega), if_neg (by omega),
    if_neg (by split_ifs <;> omega), if_neg (by omega), if_neg (by split_ifs <;> omega),
    if_neg (by omega)]

theorem decode_cases (s0 : Byte) (t : GoString) :
    (s0.val < 0x80 ∧ DecodeRuneInString (s0 :: t) = (s0.val, 1)) ∨
      (0x80 ≤ s0.val ∧ DecodeRuneInString (s0 :: t) = (RuneError, 1)) ∨
      (∃ s1 rest, t = s1 :: rest ∧ (0xC2 ≤ s0.val ∧ s0.val ≤ 0xDF) ∧
        (0x80 ≤ s1.val ∧ s1.val ≤ 0xBF)) ∨
      (∃ s1 s2 rest, t = s1 :: s2 :: rest ∧ (0xE0 ≤ s0.val ∧ s0.val ≤ 0xEF) ∧
        (acceptLo s0.val ≤ s1.val ∧ s1.val ≤ acceptHi s0.val) ∧
        (0x80 ≤ s2.val ∧ s2.val ≤ 0xBF)) ∨
      (∃ s1 s2 s3 rest, t = s1 :: s2 :: s3 :: rest ∧ (0xF0 ≤ s0.val ∧ s0.val ≤ 0xF4) ∧
        (acceptLo s0.val ≤ s1.val ∧ s1.val ≤ acceptHi s0.val) ∧
        (0x80 ≤ s2.val ∧ s2.val ≤ 0xBF) ∧ (0x80 ≤ s3.val ∧ s3.val ≤ 0xBF)) := by
  by_cases ha : s0.val < 0x80
  · exact Or.inl ⟨ha, decode_ascii s0 t ha⟩
  · right
    by_cases hbad : s0.val < 0xC2 ∨ 0xF4 < s0.val
    · left
      refine ⟨by omega, ?_⟩
      unfold DecodeRuneInString
      simp only [RuneSelf]
      rw [if_neg ha, if_pos hbad]
    · rcases t with _ | ⟨s1, t1⟩
      · left
        refine ⟨by omega, ?_⟩
        unfold DecodeRuneInString
        simp only [RuneSelf, seqSize, List.length_cons, List.length_nil]
        rw [if_neg ha, if_neg hbad, if_pos (by split_ifs <;> omega)]
      · by_cases h1 : s1.val < acceptLo s0.val ∨ acceptHi s0.val < s1.val
        · left
          refine ⟨by omega, ?_⟩
          unfold DecodeRuneInString
          simp only [RuneSelf]
          rw [if_neg ha, if_neg hbad]
          split_ifs <;> rfl
        · by_cases hsz2 : s0.val < 0xE0
          · right; left
            refine ⟨s1, t1, rfl, by omega, ?_⟩
            simp only [acceptLo, acceptHi] at h1
            split_ifs at h1 <;> omega
          · rcases t1 with _ | ⟨s2, t2⟩
            · left
              refine ⟨by omega, ?_⟩
              unfold DecodeRuneInString
              simp only [RuneSelf, seqSize, List.length_cons, List.length_nil]
              rw [if_neg ha, if_neg hbad, if_pos (by split_ifs <;> omega)]
            · by_cases h2 : s2.val < 0x80 ∨ 0xBF < s2.val
              · left
                refine ⟨by omega, ?_⟩
                unfold DecodeRuneInString
                simp only [RuneSelf]
                rw [if_neg ha, if_neg hbad]
                split_ifs <;> first | rfl | (exfalso; simp only [seqSize] at *; split_ifs at * ; all_goals omega)
              · by_cases hsz3 : s0.val < 0xF0
                · right; right; left
                  exact ⟨s1, s2, t2, rfl, by omega, by omega, by omega⟩
                · rcases t2 with _ | ⟨s3, t3⟩
                  · left
                    refine ⟨by omega, ?_⟩
                    unfold DecodeRuneInString
                    simp only [RuneSelf, seqSize, List.length_cons, List.length_nil]
                    rw [if_neg ha, if_neg hbad, if_pos (by split_ifs; omega)]
                  · by_cases h3 : s3.val < 0x80 ∨ 0xBF < s3.val
                    · left
                      refine ⟨by omega, ?_⟩
                      unfold DecodeRuneInString
                      simp only [RuneSelf]
                      rw [if_neg ha, if_neg hbad]
                      split_ifs <;> first | rfl | (exfalso; simp only [seqSize] at *; split_ifs at * ; all_goals omega)
                    · right; right; right
                      exact ⟨s1, s2, s3, t3, rfl, by omega, by omega, by omega, by omega⟩

theorem validRune_iff (r : Nat) :
    ValidRune r = true ↔ r ≤ 0x10FFFF ∧ ¬ (0xD800 ≤ r ∧ r ≤ 0xDFFF) := by
  simp only [ValidRune, MaxRune, decide_eq_true_eq]

theorem decode_validRune (s : GoString) : ValidRune (DecodeRuneInString s).1 = true := by
  rw [validRune_iff]
  have := decode_valid s
  simp only [MaxRune] at this
  exact this

theorem decode_encode (q : Nat) (rest : GoString) (hq : ValidRune q = true) :
    DecodeRuneInString (EncodeRune q ++ rest) = (q, (EncodeRune q).length) := by
  rw [validRune_iff] at hq
  unfold EncodeRune
  simp only [MaxRune]
  split_ifs with c1 c2 c3 c4
  · simp only [List.singleton_append, List.length_singleton]
    rw [decode_ascii _ _ (by rw [byte_val]; omega), byte_val]
    simp only [Prod.mk.injEq, and_true]
    omega
  · simp only [List.cons_append, List.nil_append, List.length_cons, List.length_nil]
    rw [decode_two _ _ _ (by rw [byte_val]; omega) (by rw [byte_val]; omega)]
    simp only [byte_val, Prod.mk.injEq, and_true]
    omega
  · omega
  · simp only [List.cons_append, List.nil_append, List.length_cons, List.length_nil]
    rw [decode_three _ _ _ _ (by rw [byte_val]; omega)
      (by simp only [byte_val, acceptLo, acceptHi]; split_ifs <;> omega)
      (by rw [byte_val]; omega)]
    simp only [byte_val, Prod.mk.injEq, and_true]
    omega
  · simp only [List.cons_append, List.nil_append, List.length_cons, List.length_nil]
    rw [decode_four _ _ _ _ _ (by rw [byte_val]; omega)
      (by simp only [byte_val, acceptLo, acceptHi]; split_ifs <;> omega)
      (by rw [byte_val]; omega) (by rw [byte_val]; omega)]
    simp only [byte_val, Prod.mk.injEq, and_true]
    omega

theorem decode_take (s0 : Byte) (t rest : GoString)
    (h : ¬ ((DecodeRuneInString (s0 :: t)).1 = RuneError ∧ (DecodeRuneInString (s0 :: t)).2 = 1)) :
    DecodeRuneInString ((s0 :: t).take (DecodeRuneInString (s0 :: t)).2 ++ rest) =
      DecodeRuneInString (s0 :: t) := by
  rcases decode_cases s0 t with ⟨ha, hd⟩ | ⟨_, hd⟩ | ⟨s1, r, rfl, h0, h1⟩ |
      ⟨s1, s2, r, rfl, h0, h1, h2⟩ | ⟨s1, s2, s3, r, rfl, h0, h1, h2, h3⟩
  · rw [hd]
    simp only [List.take_succ_cons, List.take_zero, List.singleton_append]
    exact decode_ascii s0 rest ha
  · rw [hd] at h
    simp at h
  · rw [decode_two s0 s1 r h0 h1]
    simp only [List.take_succ_cons, List.take_zero, List.cons_append, List.nil_append]
    exact decode_two s0 s1 rest h0 h1
  · rw [decode_three s0 s1 s2 r h0 h1 h2]
    simp only [List.take_succ_cons, List.take_zero, List.cons_append, List.nil_append]
    exact decode_three s0 s1 s2 rest h0 h1 h2
  · rw [decode_four s0 s1 s2 s3 r h0 h1 h2 h3]
    simp only [List.take_succ_cons, List.take_zero, List.cons_append, List.nil_append]
    exact decode_four s0 s1 s2 s3 rest h0 h1 h2 h3

end Go

/-! ## The Go library model: the regular expression matcher agrees with the language -/

namespace Go.regexp

theorem nullable_iff_lang (re : Regex) : re.nullable = true ↔ re.Lang [] := by
  induction re with
  | empty => simp [Regex.nullable, Regex.Lang]
  | eps => simp [Regex.nullable, Regex.Lang]
  | cls c => simp [Regex.nullable, Regex.Lang]
  | lit a => simp [Regex.nullable, Regex.Lang]
  | cat a b iha ihb =>
    simp only [Regex.nullable, Regex.Lang, Bool.and_eq_true, iha, ihb]
    constructor
    · rintro ⟨h1, h2⟩
      exact ⟨[], [], rfl, h1, h2⟩
    · rintro ⟨u, v, h, h1, h2⟩
      have hu : u = [] := (List.append_eq_nil.mp h.symm).1
      have hv : v = [] := (List.append_eq_nil.mp h.symm).2
      subst hu; subst hv
      exact ⟨h1, h2⟩
  | alt a b iha ihb => simp [Regex.nullable, Regex.Lang, iha, ihb]
  | star a _ =>
    simp only [Regex.nullable, Regex.Lang, true_iff]
    exact ⟨[], rfl, by simp⟩

theorem lang_star_cons (a : Regex) (x : Nat) (xs : List Nat) :
    (Regex.star a).Lang (x :: xs) ↔
      ∃ u v, xs = u ++ v ∧ a.Lang (x :: u) ∧ (Regex.star a).Lang v := by
  simp only [Regex.Lang]
  constructor
  · rintro ⟨parts, hflat, hparts⟩
    rcases parts with _ | ⟨p, ps⟩
    · simp at hflat
    · have hp := hparts p (by simp)
      rcases p with _ | ⟨y, u⟩
      · exact absurd rfl hp.1
      · simp only [List.flatten_cons, List.cons_append, List.cons.injEq] at hflat
        obtain ⟨rfl, rfl⟩ := hflat
        exact ⟨u, ps.flatten, rfl, hp.2, ps, rfl, fun q hq => hparts q (by simp [hq])⟩
  · rintro ⟨u, v, rfl, hu, ps, rfl, hps⟩
    refine ⟨(x :: u) :: ps, by simp, ?_⟩
    intro q hq
    rcases List.mem_cons.mp hq with rfl | hq
    · exact ⟨by simp, hu⟩
    · exact hps q hq

theorem deriv_iff_lang (re : Regex) (x : Nat) (xs : List Nat) :
    (re.deriv x).Lang xs ↔ re.Lang (x :: xs) := by
  induction re generalizing xs with
  | empty => simp [Regex.deriv, Regex.Lang]
  | eps => simp [Regex.deriv, Regex.Lang]
  | cls c =>
    by_cases h : c.matchRune x = true
    · simp only [Regex.deriv, Regex.Lang, h, if_true, List.cons.injEq]
      constructor
      · rintro rfl; exact ⟨x, ⟨rfl, rfl⟩, h⟩
      · rintro ⟨y, ⟨_, h2⟩, _⟩; exact h2
    · simp only [Regex.deriv, Regex.Lang, h, List.cons.injEq]
      simp only [Bool.false_eq_true, if_false, false_iff, not_exists, not_and]
      rintro y ⟨rfl, _⟩
      exact h
  | lit a =>
    by_cases h : a = x
    · simp [Regex.deriv, Regex.Lang, h]
    · simp [Regex.deriv, Regex.Lang, h]
      intro h1; exact fun _ => h h1.symm
  | cat a b iha ihb =>
    have key : (Regex.cat a b).Lang (x :: xs) ↔
        (∃ u v, xs = u ++ v ∧ a.Lang (x :: u) ∧ b.Lang v) ∨ (a.Lang [] ∧ b.Lang (x :: xs)) := by
      simp only [Regex.Lang]
      constructor
      · rintro ⟨u, v, h, hu, hv⟩
        rcases u with _ | ⟨y, u⟩
        · right
          simp only [List.nil_append] at h
          subst h
          exact ⟨hu, hv⟩
        · left
          simp only [List.cons_append, List.cons.injEq] at h
          obtain ⟨rfl, rfl⟩ := h
          exact ⟨u, v, rfl, hu, hv⟩
      · rintro (⟨u, v, rfl, hu, hv⟩ | ⟨hu, hv⟩)
        · exact ⟨x :: u, v, rfl, hu, hv⟩
        · exact ⟨[], x :: xs, rfl, hu, hv⟩
    rw [key]
    by_cases hn : a.nullable = true
    · have hn2 := (nullable_iff_lang a).mp hn
      simp only [Regex.deriv, hn, if_true, Regex.Lang, iha, ihb]
      simp [hn2]
    · have hn2 : ¬ a.Lang [] := fun h => hn ((nullable_iff_lang a).mpr h)
      simp only [Regex.deriv, hn, Regex.Lang, iha]
      simp [hn2]
  | alt a b iha ihb => simp [Regex.deriv, Regex.Lang, iha, ihb]
  | star a iha =>
    rw [lang_star_cons]
    simp only [Regex.deriv]
    constructor
    · rintro ⟨u, v, h, hu, hv⟩
      exact ⟨u, v, h, (iha u).mp hu, hv⟩
    · rintro ⟨u, v, h, hu, hv⟩
      exact ⟨u, v, h, (iha u).mpr hu, hv⟩

theorem matchRunes_iff_lang (re : Regex) (xs : List Nat) :
    re.matchRunes xs = true ↔ re.Lang xs := by
  induction xs generalizing re with
  | nil => simpa [Regex.matchRunes] using nullable_iff_lang re
  | cons x xs ih => rw [Regex.matchRunes, ih, deriv_iff_lang]

end Go.regexp

/-! ## The Go library model: runes of ASCII strings, replacement, splitting -/

namespace Go
open utf8

theorem runesAux_of_ascii (fuel : Nat) (s : GoString) (hlen : s.length ≤ fuel)
    (h : ∀ b ∈ s, b.val < 0x80) : runesAux fuel s = s.map fun b => b.val := by
  induction fuel generalizing s with
  | zero =>
    have : s = [] := List.length_eq_zero.mp (Nat.le_zero.mp hlen)
    subst this
    rfl
  | succ n ih =>
    rcases s with _ | ⟨s0, t⟩
    · rfl
    · have h0 : s0.val < 0x80 := h s0 (by simp)
      simp only [runesAux, decode_ascii s0 t h0, List.drop_succ_cons, List.drop_zero,
        List.map_cons]
      rw [ih t (by simpa using hlen) fun b hb => h b (by simp [hb])]

theorem ascii_of_runesAux (fuel : Nat) (s : GoString) (hlen : s.length ≤ fuel)
    (h : ∀ r ∈ runesAux fuel s, r < 0x80) : ∀ b ∈ s, b.val < 0x80 := by
  induction fuel generalizing s with
  | zero =>
    have : s = [] := List.length_eq_zero.mp (Nat.le_zero.mp hlen)
    subst this
    simp
  | succ n ih =>
    rcases s with _ | ⟨s0, t⟩
    · simp
    · simp only [runesAux, List.mem_cons, forall_eq_or_imp] at h
      have h0 : s0.val < 0x80 := by
        by_contra hge
        have := (decode_nonascii s0 t (by omega)).1
        omega
      rw [decode_ascii s0 t h0] at h
      simp only [List.drop_succ_cons, List.drop_zero] at h
      intro b hb
      rcases List.mem_cons.mp hb with rfl | hb
      · exact h0
      · exact ih t (by simpa using hlen) h.2 b hb

theorem runes_of_ascii (s : GoString) (h : ∀ b ∈ s, b.val < 0x80) :
    runes s = s.map fun b => b.val :=
  runesAux_of_ascii s.length s (Nat.le_refl _) h

theorem ascii_of_runes (s : GoString) (h : ∀ r ∈ runes s, r < 0x80) :
    ∀ b ∈ s, b.val < 0x80 :=
  ascii_of_runesAux s.length s (Nat.le_refl _) h

namespace regexp

theorem replaceAllAux_eq_filter (c : CharClass) (hc : ∀ r, 0x80 ≤ r → c.matchRune r = true)
    (fuel : Nat) (s : GoString) (hlen : s.length ≤ fuel) :
    replaceAllAux c [] fuel s = s.filter fun b => !c.matchRune b.val := by
  induction fuel using Nat.strong_induction_on generalizing s with
  | _ fuel ih =>
    rcases fuel with _ | n
    · have : s = [] := List.length_eq_zero.mp (Nat.le_zero.mp hlen)
      subst this
      rfl
    · rcases s with _ | ⟨s0, t⟩
      · rfl
      · by_cases h0 : s0.val < 0x80
        · simp only [replaceAllAux, decode_ascii s0 t h0, List.drop_succ_cons, List.drop_zero,
            List.take_succ_cons, List.take_zero, List.filter_cons]
          rw [ih n (Nat.lt_succ_self n) t (by simpa using hlen)]
          by_cases hm : c.matchRune s0.val = true <;> simp [hm]
        · have hd := decode_nonascii s0 t (by omega)
          have hw := decode_width s0 t
          simp only [replaceAllAux, hc _ hd.1, if_true, List.nil_append]
          have hlen2 : ((s0 :: t).drop (DecodeRuneInString (s0 :: t)).2).length ≤ n := by
            have h1 := hw.1
            simp only [List.length_drop, List.length_cons] at hlen ⊢
            omega
          rw [ih n (Nat.lt_succ_self n) _ hlen2]
          have hsplit := List.take_append_drop (DecodeRuneInString (s0 :: t)).2 (s0 :: t)
          have htake : ((s0 :: t).take (DecodeRuneInString (s0 :: t)).2).filter
              (fun b => !c.matchRune b.val) = [] := by
            rw [List.filter_eq_nil_iff]
            intro b hb
            simp [hc _ (hd.2 b hb)]
          conv_rhs => rw [← hsplit, List.filter_append, htake, List.nil_append]

theorem replaceAllAux_eq_nil (c : CharClass) (fuel : Nat) (s : GoString)
    (h : ∀ r ∈ runesAux fuel s, c.matchRune r = true) : replaceAllAux c [] fuel s = [] := by
  induction fuel generalizing s with
  | zero => rfl
  | succ n ih =>
    rcases s with _ | ⟨s0, t⟩
    · rfl
    · simp only [runesAux, List.mem_cons, forall_eq_or_imp] at h
      simp only [replaceAllAux, h.1, if_true, List.nil_append]
      exact ih _ h.2

end regexp

namespace strings

theorem split_ne_nil (s : GoString) (sep : Byte) : Split s sep ≠ [] := by
  rcases s with _ | ⟨c, rest⟩
  · simp [Split]
  · unfold Split
    split_ifs
    · simp
    · split <;> simp

theorem split_cons_sep (rest : GoString) (sep : Byte) :
    Split (sep :: rest) sep = [] :: Split rest sep := by
  simp [Split]

theorem split_cons_ne (c : Byte) (rest : GoString) (sep : Byte) (h : c ≠ sep) (p : GoString)
    (ps : List GoString) (hs : Split rest sep = p :: ps) :
    Split (c :: rest) sep = (c :: p) :: ps := by
  simp [Split, h, hs]

theorem split_of_not_mem (s : GoString) (sep : Byte) (h : sep ∉ s) : Split s sep = [s] := by
  induction s with
  | nil => rfl
  | cons c rest ih =>
    have hc : c ≠ sep := fun e => h (by simp [e])
    have hr : sep ∉ rest := fun e => h (by simp [e])
    exact split_cons_ne c rest sep hc rest [] (ih hr)

theorem split_append_sep (l r : GoString) (sep : Byte) (h : sep ∉ l) :
    Split (l ++ sep :: r) sep = l :: Split r sep := by
  induction l with
  | nil => exact split_cons_sep r sep
  | cons c rest ih =>
    have hc : c ≠ sep := fun e => h (by simp [e])
    have hr : sep ∉ rest := fun e => h (by simp [e])
    exact split_cons_ne c (rest ++ sep :: r) sep hc rest _ (ih hr)

theorem split_length (s : GoString) (sep : Byte) :
    (Split s sep).length = s.count sep + 1 := by
  induction s with
  | nil => rfl
  | cons c rest ih =>
    by_cases hc : c = sep
    · subst hc
      simp [split_cons_sep, ih]
    · obtain ⟨p, ps, hs⟩ := List.exists_cons_of_ne_nil (split_ne_nil rest sep)
      rw [split_cons_ne c rest sep hc p ps hs, List.count_cons_of_ne (Ne.symm hc), ← ih, hs]
      simp

theorem split_eq_pair (s : GoString) (sep : Byte) (l r : GoString)
    (h : Split s sep = [l, r]) : s = l ++ sep :: r ∧ sep ∉ l ∧ sep ∉ r := by
  induction s generalizing l with
  | nil => simp [Split] at h
  | cons c rest ih =>
    by_cases hc : c = sep
    · subst hc
      rw [split_cons_sep] at h
      simp only [List.cons.injEq] at h
      obtain ⟨rfl, h2⟩ := h
      have hcount := split_length rest c
      rw [h2] at hcount
      have hnot : c ∉ rest := by
        intro hm
        have := List.count_pos_iff.mpr hm
        simp at hcount
        omega
      have := split_of_not_mem rest c hnot
      rw [h2] at this
      simp only [List.cons.injEq, and_true] at this
      subst this
      exact ⟨rfl, by simp, hnot⟩
    · obtain ⟨p, ps, hs⟩ := List.exists_cons_of_ne_nil (split_ne_nil rest sep)
      rw [split_cons_ne c rest sep hc p ps hs] at h
      simp only [List.cons.injEq] at h
      obtain ⟨rfl, rfl⟩ := h
      obtain ⟨h1, h2, h3⟩ := ih p hs
      refine ⟨by rw [h1]; rfl, ?_, h3⟩
      intro hm
      rcases List.mem_cons.mp hm with e | e
      · exact hc e.symm
      · exact h2 e

end strings
end Go

/-! ## The Go library model: languages of character-class repetitions -/

namespace Go.regexp

theorem lang_cls_cons (c : CharClass) (x : Nat) (u : List Nat) :
    (Regex.cls c).Lang (x :: u) ↔ u = [] ∧ c.matchRune x = true := by
  simp only [Regex.Lang, List.cons.injEq]
  constructor
  · rintro ⟨y, ⟨rfl, rfl⟩, h⟩; exact ⟨rfl, h⟩
  · rintro ⟨rfl, h⟩; exact ⟨x, ⟨rfl, rfl⟩, h⟩

theorem lang_star_cls (c : CharClass) (xs : List Nat) :
    (Regex.star (Regex.cls c)).Lang xs ↔ ∀ x ∈ xs, c.matchRune x = true := by
  induction xs with
  | nil =>
    simp only [List.not_mem_nil, false_imp_iff, implies_true, iff_true]
    exact ⟨[], rfl, by simp⟩
  | cons x xs ih =>
    rw [lang_star_cons]
    simp only [lang_cls_cons, List.mem_cons, forall_eq_or_imp]
    constructor
    · rintro ⟨u, v, rfl, ⟨rfl, hx⟩, hv⟩
      exact ⟨hx, ih.mp hv⟩
    · rintro ⟨hx, hxs⟩
      exact ⟨[], xs, rfl, ⟨rfl, hx⟩, ih.mpr hxs⟩

theorem lang_cat_cls (c : CharClass) (b : Regex) (xs : List Nat) :
    (Regex.cat (Regex.cls c) b).Lang xs ↔
      ∃ x v, xs = x :: v ∧ c.matchRune x = true ∧ b.Lang v := by
  simp only [Regex.Lang]
  constructor
  · rintro ⟨u, v, rfl, ⟨x, rfl, hx⟩, hv⟩
    exact ⟨x, v, rfl, hx, hv⟩
  · rintro ⟨x, v, rfl, hx, hv⟩
    exact ⟨[x], v, rfl, ⟨x, rfl, hx⟩, hv⟩

theorem lang_plus_cls (c : CharClass) (xs : List Nat) :
    (Regex.plus (Regex.cls c)).Lang xs ↔ xs ≠ [] ∧ ∀ x ∈ xs, c.matchRune x = true := by
  rw [Regex.plus, lang_cat_cls]
  simp only [lang_star_cls]
  constructor
  · rintro ⟨x, v, rfl, hx, hv⟩
    exact ⟨by simp, by simpa using ⟨hx, hv⟩⟩
  · rintro ⟨hne, h⟩
    obtain ⟨x, v, rfl⟩ := List.exists_cons_of_ne_nil hne
    simp only [List.mem_cons, forall_eq_or_imp] at h
    exact ⟨x, v, rfl, h.1, h.2⟩

theorem lang_repeatMin_two_cls (c : CharClass) (xs : List Nat) :
    (Regex.repeatMin 2 (Regex.cls c)).Lang xs ↔
      2 ≤ xs.length ∧ ∀ x ∈ xs, c.matchRune x = true := by
  simp only [Regex.repeatMin, lang_cat_cls, lang_star_cls]
  constructor
  · rintro ⟨x, v, rfl, hx, y, w, rfl, hy, hw⟩
    exact ⟨by simp, by simpa using ⟨hx, hy, hw⟩⟩
  · rintro ⟨hlen, h⟩
    rcases xs with _ | ⟨x, _ | ⟨y, w⟩⟩
    · simp at hlen
    · simp at hlen
    · simp only [List.mem_cons, forall_eq_or_imp] at h
      exact ⟨x, y :: w, rfl, h.1, y, w, rfl, h.2.1, h.2.2⟩

end Go.regexp

namespace tools

open Go

theorem lang_emailRegex (xs : List Nat) :
    emailRegex.Lang xs ↔
      ∃ l d t, xs = l ++ 0x40 :: (d ++ 0x2E :: t) ∧
        (l ≠ [] ∧ ∀ x ∈ l, emailLocalClass.matchRune x = true) ∧
        (d ≠ [] ∧ ∀ x ∈ d, emailDomainClass.matchRune x = true) ∧
        (2 ≤ t.length ∧ ∀ x ∈ t, emailTldClass.matchRune x = true) := by
  unfold emailRegex
  constructor
  · intro h
    obtain ⟨l, r1, rfl, hl, h1⟩ := h
    obtain ⟨a, r2, rfl, ha, h2⟩ := h1
    obtain ⟨d, r3, rfl, hd, h3⟩ := h2
    obtain ⟨b, t, rfl, hb, ht⟩ := h3
    simp only [regexp.Regex.Lang] at ha hb
    subst ha; subst hb
    exact ⟨l, d, t, by simp, (regexp.lang_plus_cls _ _).mp hl, (regexp.lang_plus_cls _ _).mp hd,
      (regexp.lang_repeatMin_two_cls _ _).mp ht⟩
  · rintro ⟨l, d, t, rfl, hl, hd, ht⟩
    exact ⟨l, _, rfl, (regexp.lang_plus_cls _ _).mpr hl, [0x40], _, rfl, rfl, d, _, rfl,
      (regexp.lang_plus_cls _ _).mpr hd, [0x2E], t, rfl, rfl,
      (regexp.lang_repeatMin_two_cls _ _).mpr ht⟩

end tools

/-! ## The validator: sanitiser, validator and orchestration lemmas -/

namespace tools
open Go

theorem isAcceptedLocalRune_iff (r : Nat) :
    isAcceptedLocalRune r = true ↔
      (0x41 ≤ r ∧ r ≤ 0x5A) ∨ (0x61 ≤ r ∧ r ≤ 0x7A) ∨ (0x30 ≤ r ∧ r ≤ 0x39) ∨ r = 0x2E
        ∨ r = 0x2D ∨ r = 0x5F := by
  simp only [isAcceptedLocalRune, Bool.or_eq_true, Bool.and_eq_true, decide_eq_true_eq]
  tauto

theorem cleanRegex_matchRune (r : Nat) :
    emailLocalPartCleanRegex.matchRune r = !isAcceptedLocalRune r := by
  rw [Bool.eq_iff_iff]
  simp only [Bool.not_eq_true', ← Bool.not_eq_true, isAcceptedLocalRune_iff]
  simp only [regexp.CharClass.matchRune, emailLocalPartCleanRegex, 
    List.any_cons, List.any_nil, Bool.or_false, bne_iff_ne, ne_eq, Bool.or_eq_true, decide_eq_true_eq, Bool.not_eq_true, Bool.or_eq_false_iff, decide_eq_false_iff_not]
  omega

theorem sanitize_eq_filter (s : GoString) :
    SanitizeEmailLocalPart s = s.filter fun b => isAcceptedLocalRune b.val := by
  have h := regexp.replaceAllAux_eq_filter emailLocalPartCleanRegex
    (fun r hr => by
      rw [cleanRegex_matchRune]
      have : ¬ isAcceptedLocalRune r = true := by
        rw [isAcceptedLocalRune_iff]
        omega
      simpa using this)
    s.length s (Nat.le_refl _)
  simp only [cleanRegex_matchRune, Bool.not_not] at h
  exact h

theorem sanitize_eq_nil_of_runes (s : GoString)
    (h : ∀ r ∈ utf8.runes s, isAcceptedLocalRune r = false) : SanitizeEmailLocalPart s = [] := by
  apply regexp.replaceAllAux_eq_nil
  intro r hr
  rw [cleanRegex_matchRune, h r hr]
  rfl

theorem sanitize_accepted (s : GoString) :
    ∀ b ∈ SanitizeEmailLocalPart s, isAcceptedLocalRune b.val = true := by
  intro b hb
  rw [sanitize_eq_filter] at hb
  exact (List.mem_filter.mp hb).2

theorem split_head_eq_localPart (e l : GoString) (rest : List GoString)
    (h : strings.Split e 0x40 = l :: rest) : l = localPart e := by
  induction e generalizing l rest with
  | nil =>
    simp only [strings.Split, List.cons.injEq] at h
    rw [← h.1]
    rfl
  | cons c t ih =>
    by_cases hc : c = 0x40
    · subst hc
      rw [strings.split_cons_sep] at h
      simp only [List.cons.injEq] at h
      rw [← h.1]
      simp [localPart]
    · obtain ⟨p, ps, hs⟩ := List.exists_cons_of_ne_nil (strings.split_ne_nil t 0x40)
      rw [strings.split_cons_ne c t 0x40 hc p ps hs] at h
      simp only [List.cons.injEq] at h
      rw [← h.1, ih p ps hs]
      simp [localPart, hc]

theorem normalizeEmail_of_pair (e l dom u d : GoString) (h : strings.Split e 0x40 = [l, dom]) :
    NormalizeEmail e u d =
      if SanitizeEmailLocalPart l = [] then sprintfAt u d
      else if ValidateEmail (sprintfAt (SanitizeEmailLocalPart l) dom) = true then
        sprintfAt (SanitizeEmailLocalPart l) dom
      else sprintfAt u d := by
  have hne : e ≠ [] := by
    rintro rfl
    simp [strings.Split] at h
  simp only [NormalizeEmail, hne, if_false, h]
  by_cases hc : SanitizeEmailLocalPart l = []
  · simp only [hc, if_true]
    by_cases hv : ValidateEmail (sprintfAt u d) = true <;> simp [hv]
  · simp only [hc, if_false]
    by_cases hv : ValidateEmail (sprintfAt (SanitizeEmailLocalPart l) dom) = true <;> simp [hv]

theorem normalizeEmail_of_not_pair (e u d : GoString) (h : (strings.Split e 0x40).length ≠ 2) :
    NormalizeEmail e u d = sprintfAt u d := by
  unfold NormalizeEmail
  split_ifs
  · rfl
  · split
    · rename_i l dom hs
      rw [hs] at h
      simp at h
    · rfl

theorem emailLocalClass_bound (x : Nat) (h : emailLocalClass.matchRune x = true) :
    x < 0x80 ∧ x ≠ 0x40 := by
  simp only [regexp.CharClass.matchRune, emailLocalClass, List.any_cons, List.any_nil,
    Bool.or_false, bne_iff_ne, ne_eq, Bool.or_eq_true, decide_eq_true_eq, Bool.not_eq_true,
    Bool.or_eq_false_iff, decide_eq_false_iff_not, Bool.not_eq_false] at h
  omega

theorem emailDomainClass_bound (x : Nat) (h : emailDomainClass.matchRune x = true) :
    x < 0x80 ∧ x ≠ 0x40 := by
  simp only [regexp.CharClass.matchRune, emailDomainClass, List.any_cons, List.any_nil,
    Bool.or_false, bne_iff_ne, ne_eq, Bool.or_eq_true, decide_eq_true_eq, Bool.not_eq_true,
    Bool.or_eq_false_iff, decide_eq_false_iff_not, Bool.not_eq_false] at h
  omega

theorem emailTldClass_bound (x : Nat) (h : emailTldClass.matchRune x = true) :
    x < 0x80 ∧ x ≠ 0x40 := by
  simp only [regexp.CharClass.matchRune, emailTldClass, List.any_cons, List.any_nil,
    Bool.or_false, bne_iff_ne, ne_eq, Bool.or_eq_true, decide_eq_true_eq, Bool.not_eq_true,
    Bool.or_eq_false_iff, decide_eq_false_iff_not, Bool.not_eq_false] at h
  omega

theorem validateEmail_runes (e : GoString) (h : ValidateEmail e = true) :
    ∃ l d t, (e.map fun b => b.val) = l ++ 0x40 :: (d ++ 0x2E :: t) ∧
      (l ≠ [] ∧ ∀ x ∈ l, emailLocalClass.matchRune x = true) ∧
      (d ≠ [] ∧ ∀ x ∈ d, emailDomainClass.matchRune x = true) ∧
      (2 ≤ t.length ∧ ∀ x ∈ t, emailTldClass.matchRune x = true) := by
  have hl := (lang_emailRegex _).mp ((regexp.matchRunes_iff_lang _ _).mp h)
  obtain ⟨l, d, t, hr, hl1, hd1, ht1⟩ := hl
  have hascii : ∀ r ∈ utf8.runes e, r < 0x80 := by
    intro r hr2
    rw [hr] at hr2
    simp only [List.mem_append, List.mem_cons] at hr2
    rcases hr2 with h1 | rfl | h1 | rfl | h1
    · exact (emailLocalClass_bound r (hl1.2 r h1)).1
    · decide
    · exact (emailDomainClass_bound r (hd1.2 r h1)).1
    · decide
    · exact (emailTldClass_bound r (ht1.2 r h1)).1
  rw [runes_of_ascii e (ascii_of_runes e hascii)] at hr
  exact ⟨l, d, t, hr, hl1, hd1, ht1⟩

theorem validateEmail_split (e : GoString) (h : ValidateEmail e = true) :
    ∃ l dom, strings.Split e 0x40 = [l, dom] ∧ l ≠ [] ∧ e = l ++ 0x40 :: dom ∧
      ∀ b ∈ l, emailLocalClass.matchRune b.val = true := by
  obtain ⟨l, d, t, hr, hl1, hd1, ht1⟩ := validateEmail_runes e h
  obtain ⟨l1, r1, rfl, hl2, hr2⟩ := List.map_eq_append_iff.mp hr
  rcases r1 with _ | ⟨a, dom⟩
  · simp at hr2
  · simp only [List.map_cons, List.cons.injEq] at hr2
    obtain ⟨ha, hdom⟩ := hr2
    have ha2 : a = 0x40 := Fin.ext ha
    subst ha2
    have hnl : (0x40 : Byte) ∉ l1 := by
      intro hm
      have : (0x40 : Nat) ∈ l := by
        rw [← hl2]
        exact List.mem_map.mpr ⟨0x40, hm, rfl⟩
      exact (emailLocalClass_bound _ (hl1.2 _ this)).2 rfl
    have hnd : (0x40 : Byte) ∉ dom := by
      intro hm
      have hm2 : (0x40 : Nat) ∈ d ++ 0x2E :: t := by
        rw [← hdom]
        exact List.mem_map.mpr ⟨0x40, hm, rfl⟩
      simp only [List.mem_append, List.mem_cons] at hm2
      rcases hm2 with h1 | h1 | h1
      · exact (emailDomainClass_bound _ (hd1.2 _ h1)).2 rfl
      · simp at h1
      · exact (emailTldClass_bound _ (ht1.2 _ h1)).2 rfl
    refine ⟨l1, dom, ?_, ?_, rfl, ?_⟩
    · rw [strings.split_append_sep l1 dom 0x40 hnl, strings.split_of_not_mem dom 0x40 hnd]
    · rintro rfl
      exact hl1.1 hl2.symm
    · intro b hb
      exact hl1.2 _ (by rw [← hl2]; exact List.mem_map.mpr ⟨b, hb, rfl⟩)

theorem vnu_username (tbl : Nat → Nat) (user : User) (d : GoString) (p : GoString → Bool) :
    (ValidateAndNormalizeUser tbl user d p).1.Username =
      (GenerateUniqueUsername tbl user.Username user.Mobile p).1 := by
  unfold ValidateAndNormalizeUser
  dsimp only
  split_ifs <;> rfl

theorem vnu_mail_forced (tbl : Nat → Nat) (user : User) (d : GoString) (p : GoString → Bool)
    (h : (GenerateUniqueUsername tbl user.Username user.Mobile p).2 = true ∨ user.Mail = [] ∨
      ∃ l dom, strings.Split user.Mail 0x40 = [l, dom] ∧ SanitizeEmailLocalPart l ≠ l) :
    (ValidateAndNormalizeUser tbl user d p).1.Mail =
      sprintfAt (GenerateUniqueUsername tbl user.Username user.Mobile p).1 d := by
  unfold ValidateAndNormalizeUser
  dsimp only
  rw [if_pos]
  by_cases hm : user.Mail = []
  · exact Or.inr hm
  · left
    rw [if_pos hm]
    rcases h with h | h | ⟨l, dom, hs, hne⟩
    · split
      · split_ifs <;> simp [h]
      · exact h
    · exact absurd h hm
    · rw [hs]
      simp [hne]

theorem vnu_mail_regular (tbl : Nat → Nat) (user : User) (d : GoString) (p : GoString → Bool)
    (hmod : (GenerateUniqueUsername tbl user.Username user.Mobile p).2 = false)
    (hne : user.Mail ≠ [])
    (hclean : ∀ l dom, strings.Split user.Mail 0x40 = [l, dom] → SanitizeEmailLocalPart l = l) :
    (ValidateAndNormalizeUser tbl user d p).1.Mail =
      NormalizeEmail user.Mail (GenerateUniqueUsername tbl user.Username user.Mobile p).1 d := by
  unfold ValidateAndNormalizeUser
  dsimp only
  rw [if_neg]
  rintro (h | h)
  · rw [if_pos hne] at h
    split at h
    · rename_i l dom hs
      rw [hclean l dom hs] at h
      simp [hmod] at h
    · simp [hmod] at h
  · exact hne h

end tools

/-! ## The Go library model: what `strings.ToLower` returns -/

namespace Go
open utf8

namespace strings

theorem lower_byte_cases (tbl : Nat → Nat)
    (htbl : ∀ r, 0x80 ≤ r → ValidRune r = true →
      tbl r ≠ 0x20 ∧ ¬ (0x41 ≤ tbl r ∧ tbl r ≤ 0x5A))
    (s0 : Byte) (t : GoString) (h0 : s0.val ≠ 0x20) (b : Byte)
    (hb : b ∈ EncodeRune (unicode.ToLower tbl (DecodeRuneInString (s0 :: t)).1)) :
    b.val ≠ 0x20 ∧ ¬ (0x41 ≤ b.val ∧ b.val ≤ 0x5A) := by
  by_cases ha : s0.val < 0x80
  · rw [decode_ascii s0 t ha] at hb
    have hle : unicode.ToLower tbl s0.val ≤ 0x7F := by
      unfold unicode.ToLower
      split_ifs <;> omega
    rcases encodeRune_bytes _ b hb with ⟨_, hv⟩ | hv
    · rw [hv]
      unfold unicode.ToLower
      split_ifs <;> omega
    · omega
  · have hd := (decode_nonascii s0 t (by omega)).1
    rcases encodeRune_bytes _ b hb with ⟨hle, hv⟩ | hv
    · rw [hv]
      have : unicode.ToLower tbl (DecodeRuneInString (s0 :: t)).1
          = tbl (DecodeRuneInString (s0 :: t)).1 := by
        unfold unicode.ToLower
        rw [if_neg (by omega)]
      rw [this]
      exact htbl _ hd (decode_validRune _)
    · omega

theorem mapTail_bytes (tbl : Nat → Nat)
    (htbl : ∀ r, 0x80 ≤ r → ValidRune r = true →
      tbl r ≠ 0x20 ∧ ¬ (0x41 ≤ tbl r ∧ tbl r ≤ 0x5A))
    (fuel : Nat) (s : GoString) (hs : ∀ b ∈ s, b.val ≠ 0x20) :
    ∀ b ∈ mapTail (unicode.ToLower tbl) fuel s,
      b.val ≠ 0x20 ∧ ¬ (0x41 ≤ b.val ∧ b.val ≤ 0x5A) := by
  induction fuel generalizing s with
  | zero => simp [mapTail]
  | succ n ih =>
    rcases s with _ | ⟨s0, t⟩
    · simp [mapTail]
    · intro b hb
      simp only [mapTail, List.mem_append] at hb
      rcases hb with hb | hb
      · exact lower_byte_cases tbl htbl s0 t (hs s0 (by simp)) b hb
      · exact ih _ (fun c hc => hs c (List.mem_of_mem_drop hc)) b hb

theorem unchanged_rune_bytes (tbl : Nat → Nat) (s0 : Byte) (t : GoString)
    (h0 : s0.val ≠ 0x20)
    (hfix : unicode.ToLower tbl (DecodeRuneInString (s0 :: t)).1
      = (DecodeRuneInString (s0 :: t)).1) :
    ∀ b ∈ (s0 :: t).take (DecodeRuneInString (s0 :: t)).2,
      b.val ≠ 0x20 ∧ ¬ (0x41 ≤ b.val ∧ b.val ≤ 0x5A) := by
  by_cases ha : s0.val < 0x80
  · rw [decode_ascii s0 t ha] at hfix ⊢
    simp only [List.take_succ_cons, List.take_zero, List.mem_singleton, forall_eq]
    refine ⟨h0, ?_⟩
    unfold unicode.ToLower at hfix
    split_ifs at hfix <;> omega
  · intro b hb
    have := (decode_nonascii s0 t (by omega)).2 b hb
    omega

theorem mapHead_bytes (tbl : Nat → Nat)
    (htbl : ∀ r, 0x80 ≤ r → ValidRune r = true →
      tbl r ≠ 0x20 ∧ ¬ (0x41 ≤ tbl r ∧ tbl r ≤ 0x5A))
    (fuel : Nat) (done s : GoString) (hlen : s.length ≤ fuel)
    (hdone : ∀ b ∈ done, b.val ≠ 0x20 ∧ ¬ (0x41 ≤ b.val ∧ b.val ≤ 0x5A))
    (hs : ∀ b ∈ s, b.val ≠ 0x20) :
    ∀ b ∈ mapHead (unicode.ToLower tbl) fuel done s,
      b.val ≠ 0x20 ∧ ¬ (0x41 ≤ b.val ∧ b.val ≤ 0x5A) := by
  induction fuel generalizing done s with
  | zero =>
    have : s = [] := List.length_eq_zero.mp (Nat.le_zero.mp hlen)
    subst this
    simpa [mapHead] using hdone
  | succ n ih =>
    rcases s with _ | ⟨s0, t⟩
    · simpa [mapHead] using hdone
    · have h0 : s0.val ≠ 0x20 := hs s0 (by simp)
      have hw := decode_width s0 t
      have hlen2 : ((s0 :: t).drop (DecodeRuneInString (s0 :: t)).2).length ≤ n := by
        have h1 := hw.1
        simp only [List.length_drop, List.length_cons] at hlen ⊢
        omega
      have hrest : ∀ b ∈ (s0 :: t).drop (DecodeRuneInString (s0 :: t)).2, b.val ≠ 0x20 :=
        fun c hc => hs c (List.mem_of_mem_drop hc)
      have hcont : unicode.ToLower tbl (DecodeRuneInString (s0 :: t)).1
          = (DecodeRuneInString (s0 :: t)).1 →
          ∀ b ∈ mapHead (unicode.ToLower tbl) n
            (done ++ (s0 :: t).take (DecodeRuneInString (s0 :: t)).2)
            ((s0 :: t).drop (DecodeRuneInString (s0 :: t)).2),
            b.val ≠ 0x20 ∧ ¬ (0x41 ≤ b.val ∧ b.val ≤ 0x5A) := by
        intro hfix
        apply ih _ _ hlen2 _ hrest
        intro b hb
        rcases List.mem_append.mp hb with hb | hb
        · exact hdone b hb
        · exact unchanged_rune_bytes tbl s0 t h0 hfix b hb
      simp only [mapHead]
      split_ifs with h1 h2
      · exact hcont h1.1
      · exact hcont h2.2.2
      all_goals
        intro b hb
        simp only [List.mem_append] at hb
        rcases hb with (hb | hb) | hb
        · exact hdone b hb
        · exact lower_byte_cases tbl htbl s0 t h0 b hb
        · exact mapTail_bytes tbl htbl n _
            (fun c hc => hs c (List.mem_of_mem_drop hc)) b hb

theorem mapHead_ne_nil_of_done (mapping : Nat → Nat) (fuel : Nat) (done s : GoString)
    (h : done ≠ []) : mapHead mapping fuel done s ≠ [] := by
  induction fuel generalizing done s with
  | zero => simp [mapHead, h]
  | succ n ih =>
    rcases s with _ | ⟨s0, t⟩
    · simpa [mapHead] using h
    · simp only [mapHead]
      split_ifs
      · exact ih _ _ (by simp [h])
      · exact ih _ _ (by simp [h])
      all_goals simp [h]

theorem map_ne_nil (mapping : Nat → Nat) (s : GoString) (h : s ≠ []) : Map mapping s ≠ [] := by
  obtain ⟨s0, t, rfl⟩ := List.exists_cons_of_ne_nil h
  have hw := (decode_width s0 t).1
  have htake : (s0 :: t).take (DecodeRuneInString (s0 :: t)).2 ≠ [] := by
    intro he
    have := congrArg List.length he
    simp only [List.length_take, List.length_cons, List.length_nil] at this
    omega
  simp only [Map, List.length_cons, mapHead, List.nil_append]
  split_ifs
  · exact mapHead_ne_nil_of_done _ _ _ _ htake
  · exact mapHead_ne_nil_of_done _ _ _ _ htake
  all_goals simp [encodeRune_ne_nil]

theorem toLower_ne_nil (tbl : Nat → Nat) (s : GoString) (h : s ≠ []) : ToLower tbl s ≠ [] := by
  unfold ToLower
  split_ifs
  · simpa using h
  · exact h
  · exact map_ne_nil _ s h

theorem toLower_bytes (tbl : Nat → Nat)
    (htbl : ∀ r, 0x80 ≤ r → ValidRune r = true →
      tbl r ≠ 0x20 ∧ ¬ (0x41 ≤ tbl r ∧ tbl r ≤ 0x5A))
    (s : GoString) (hs : ∀ b ∈ s, b.val ≠ 0x20) :
    ∀ b ∈ ToLower tbl s, b.val ≠ 0x20 ∧ ¬ (0x41 ≤ b.val ∧ b.val ≤ 0x5A) := by
  unfold ToLower
  split_ifs with h1 h2
  · intro b hb
    obtain ⟨c, hc, rfl⟩ := List.mem_map.mp hb
    have hc0 := hs c hc
    split_ifs with h3
    · rw [byte_val]
      omega
    · exact ⟨hc0, h3⟩
  · intro b hb
    refine ⟨hs b hb, ?_⟩
    intro hup
    apply h2
    rw [List.any_eq_true]
    exact ⟨b, hb, by simpa using hup⟩
  · exact mapHead_bytes tbl htbl s.length [] s (Nat.le_refl _) (by simp) hs

theorem replaceAll_eq_filter (s : GoString) (old : Byte) :
    ReplaceAll s old [] = s.filter fun b => decide (b ≠ old) := by
  induction s with
  | nil => rfl
  | cons c t ih =>
    by_cases hc : c = old
    · simp [ReplaceAll, hc, ih]
    · simp [ReplaceAll, hc, ih]

theorem fixedRune_take (mapping : Nat → Nat) (s0 : Byte) (t : GoString)
    (hfix : mapping (DecodeRuneInString (s0 :: t)).1 = (DecodeRuneInString (s0 :: t)).1)
    (hok : (DecodeRuneInString (s0 :: t)).1 ≠ RuneError ∨ (DecodeRuneInString (s0 :: t)).2 ≠ 1) :
    FixedRune mapping ((s0 :: t).take (DecodeRuneInString (s0 :: t)).2) := by
  have hw := decode_width s0 t
  have hlen : ((s0 :: t).take (DecodeRuneInString (s0 :: t)).2).length
      = (DecodeRuneInString (s0 :: t)).2 := by
    rw [List.length_take]
    omega
  have hne : ¬ ((DecodeRuneInString (s0 :: t)).1 = RuneError ∧
      (DecodeRuneInString (s0 :: t)).2 = 1) := by
    rintro ⟨h1, h2⟩
    rcases hok with h | h
    · exact h h1
    · exact h h2
  refine ⟨?_, ?_⟩
  · intro he
    rw [he] at hlen
    simp only [List.length_nil] at hlen
    omega
  · intro rest
    rw [decode_take s0 t rest hne, hlen]
    refine ⟨rfl, hfix, ?_⟩
    intro h1 h2
    exact hne ⟨h1, h2⟩

theorem fixedRune_encode (tbl : Nat → Nat) (htbl : unicode.LowerTable tbl) (c : Nat)
    (hc : ValidRune c = true) :
    FixedRune (unicode.ToLower tbl) (EncodeRune (unicode.ToLower tbl c)) := by
  have hv : ValidRune (unicode.ToLower tbl c) = true ∧
      unicode.ToLower tbl (unicode.ToLower tbl c) = unicode.ToLower tbl c := by
    by_cases ha : c ≤ 0x7F
    · have hle : unicode.ToLower tbl c ≤ 0x7F ∧
          ¬ (0x41 ≤ unicode.ToLower tbl c ∧ unicode.ToLower tbl c ≤ 0x5A) := by
        unfold unicode.ToLower
        split_ifs <;> omega
      refine ⟨(validRune_iff _).mpr (by omega), ?_⟩
      generalize unicode.ToLower tbl c = x at hle
      unfold unicode.ToLower
      rw [if_pos hle.1, if_neg hle.2]
    · have h1 : unicode.ToLower tbl c = tbl c := by
        unfold unicode.ToLower
        rw [if_neg ha]
      rw [h1]
      obtain ⟨h2, _, h4⟩ := htbl c (by omega) hc
      exact ⟨h2, h4⟩
  refine ⟨encodeRune_ne_nil _, ?_⟩
  intro rest
  rw [decode_encode _ rest hv.1]
  refine ⟨rfl, hv.2, ?_⟩
  intro he
  have he2 : unicode.ToLower tbl c = RuneError := he
  rw [he2]
  decide

theorem mapHead_fixed (mapping : Nat → Nat) (chunks : List GoString)
    (hch : ∀ ch ∈ chunks, FixedRune mapping ch) (fuel : Nat) (done : GoString)
    (hlen : chunks.flatten.length ≤ fuel) :
    mapHead mapping fuel done chunks.flatten = done ++ chunks.flatten := by
  induction chunks generalizing fuel done with
  | nil =>
    rcases fuel with _ | n <;> simp [mapHead]
  | cons ch cs ih =>
    obtain ⟨hne, hfix⟩ := hch ch (by simp)
    obtain ⟨b, ch1, rfl⟩ := List.exists_cons_of_ne_nil hne
    obtain ⟨hw, hm, hre⟩ := hfix cs.flatten
    rcases fuel with _ | n
    · simp at hlen
    · have hstep : mapHead mapping n
            (done ++ ((b :: ch1) ++ cs.flatten).take (b :: ch1).length)
            (((b :: ch1) ++ cs.flatten).drop (b :: ch1).length)
          = done ++ ((b :: ch1) ++ cs.flatten) := by
        rw [List.take_left', List.drop_left', ih (fun c hc => hch c (by simp [hc]))]
        · simp
        · simp only [List.flatten_cons, List.length_append, List.length_cons] at hlen
          omega
        · rfl
        · rfl
      simp only [List.flatten_cons]
      have hcons : (b :: ch1) ++ cs.flatten = b :: (ch1 ++ cs.flatten) := rfl
      rw [hcons] at hw hm hre hstep ⊢
      simp only [mapHead]
      rw [hw]
      by_cases hE : (DecodeRuneInString (b :: (ch1 ++ cs.flatten))).1 = RuneError
      · rw [if_neg (fun h => h.2 hE), if_pos ⟨hE, hre hE, hm⟩]
        exact hstep
      · rw [if_pos ⟨hm, hE⟩]
        exact hstep

theorem mapTail_chunks (tbl : Nat → Nat) (htbl : unicode.LowerTable tbl) (fuel : Nat)
    (s : GoString) :
    ∃ chunks : List GoString, mapTail (unicode.ToLower tbl) fuel s = chunks.flatten ∧
      ∀ ch ∈ chunks, FixedRune (unicode.ToLower tbl) ch := by
  induction fuel generalizing s with
  | zero => exact ⟨[], rfl, by simp⟩
  | succ n ih =>
    rcases s with _ | ⟨s0, t⟩
    · exact ⟨[], rfl, by simp⟩
    · obtain ⟨cs, hcs, hall⟩ := ih ((s0 :: t).drop (DecodeRuneInString (s0 :: t)).2)
      refine ⟨EncodeRune (unicode.ToLower tbl (DecodeRuneInString (s0 :: t)).1) :: cs, ?_, ?_⟩
      · simp only [mapTail, List.flatten_cons, hcs]
      · intro ch hch
        rcases List.mem_cons.mp hch with rfl | hch
        · exact fixedRune_encode tbl htbl _ (decode_validRune _)
        · exact hall ch hch

theorem mapHead_chunks (tbl : Nat → Nat) (htbl : unicode.LowerTable tbl) (fuel : Nat)
    (dchunks : List GoString) (s : GoString) (hlen : s.length ≤ fuel)
    (hd : ∀ ch ∈ dchunks, FixedRune (unicode.ToLower tbl) ch) :
    ∃ chunks : List GoString,
      mapHead (unicode.ToLower tbl) fuel dchunks.flatten s = chunks.flatten ∧
      ∀ ch ∈ chunks, FixedRune (unicode.ToLower tbl) ch := by
  induction fuel generalizing dchunks s with
  | zero =>
    have : s = [] := List.length_eq_zero.mp (Nat.le_zero.mp hlen)
    subst this
    exact ⟨dchunks, by simp [mapHead], hd⟩
  | succ n ih =>
    rcases s with _ | ⟨s0, t⟩
    · exact ⟨dchunks, by simp [mapHead], hd⟩
    · have hw := decode_width s0 t
      have hlen2 : ((s0 :: t).drop (DecodeRuneInString (s0 :: t)).2).length ≤ n := by
        have h1 := hw.1
        simp only [List.length_drop, List.length_cons] at hlen ⊢
        omega
      have hcont : unicode.ToLower tbl (DecodeRuneInString (s0 :: t)).1
            = (DecodeRuneInString (s0 :: t)).1 →
          ((DecodeRuneInString (s0 :: t)).1 ≠ RuneError ∨
            (DecodeRuneInString (s0 :: t)).2 ≠ 1) →
          ∃ chunks : List GoString,
            mapHead (unicode.ToLower tbl) n
              (dchunks.flatten ++ (s0 :: t).take (DecodeRuneInString (s0 :: t)).2)
              ((s0 :: t).drop (DecodeRuneInString (s0 :: t)).2) = chunks.flatten ∧
            ∀ ch ∈ chunks, FixedRune (unicode.ToLower tbl) ch := by
        intro hfix hok
        have := ih (dchunks ++ [(s0 :: t).take (DecodeRuneInString (s0 :: t)).2]) _ hlen2
          (by
            intro ch hch
            rcases List.mem_append.mp hch with h | h
            · exact hd ch h
            · rw [List.mem_singleton] at h
              rw [h]
              exact fixedRune_take _ s0 t hfix hok)
        simpa using this
      simp only [mapHead]
      split_ifs with h1 h2
      · exact hcont h1.1 (Or.inl h1.2)
      · exact hcont h2.2.2 (Or.inr h2.2.1)
      all_goals
        obtain ⟨cs, hcs, hall⟩ := mapTail_chunks tbl htbl n
          ((s0 :: t).drop (if (DecodeRuneInString (s0 :: t)).1 = RuneError then
            (DecodeRuneInString (s0 :: t)).2
            else (RuneLen (DecodeRuneInString (s0 :: t)).1).toNat))
        refine ⟨dchunks ++ EncodeRune (unicode.ToLower tbl (DecodeRuneInString (s0 :: t)).1)
          :: cs, ?_, ?_⟩
        · simp only [List.flatten_append, List.flatten_cons, ← hcs, List.append_assoc]
          simp [*]
        · intro ch hch
          rcases List.mem_append.mp hch with h | h
          · exact hd ch h
          · rcases List.mem_cons.mp h with rfl | h
            · exact fixedRune_encode tbl htbl _ (decode_validRune _)
            · exact hall ch h

theorem toLower_of_ascii_lower (tbl : Nat → Nat) (x : GoString)
    (h1 : ∀ b ∈ x, b.val < 0x80) (h2 : ∀ b ∈ x, ¬ (0x41 ≤ b.val ∧ b.val ≤ 0x5A)) :
    ToLower tbl x = x := by
  unfold ToLower
  rw [if_pos (by simpa [RuneSelf] using h1), if_neg]
  intro h
  rw [List.any_eq_true] at h
  obtain ⟨b, hb, hup⟩ := h
  exact h2 b hb (by simpa using hup)

theorem fixedRune_ascii (tbl : Nat → Nat) (ch : GoString)
    (hch : FixedRune (unicode.ToLower tbl) ch) (hascii : ∀ b ∈ ch, b.val < 0x80) :
    ∀ b ∈ ch, ¬ (0x41 ≤ b.val ∧ b.val ≤ 0x5A) := by
  obtain ⟨hne, hfix⟩ := hch
  obtain ⟨b0, ch1, rfl⟩ := List.exists_cons_of_ne_nil hne
  obtain ⟨hw, hm, _⟩ := hfix []
  have h0 : b0.val < 0x80 := hascii b0 (by simp)
  rw [List.append_nil, decode_ascii b0 ch1 h0] at hw hm
  simp only [List.length_cons] at hw
  have : ch1 = [] := List.length_eq_zero.mp (by omega)
  subst this
  intro b hb
  rw [List.mem_singleton] at hb
  subst hb
  unfold unicode.ToLower at hm
  split_ifs at hm <;> omega

theorem toLower_idem (tbl : Nat → Nat) (htbl : unicode.LowerTable tbl) (s : GoString) :
    ToLower tbl (ToLower tbl s) = ToLower tbl s := by
  by_cases hs : s.all (fun c => decide (c.val < RuneSelf)) = true
  · have hs2 : ∀ b ∈ s, b.val < 0x80 := by simpa [RuneSelf] using hs
    apply toLower_of_ascii_lower
    · unfold ToLower
      rw [if_pos hs]
      split_ifs
      · intro b hb
        obtain ⟨c, hc, rfl⟩ := List.mem_map.mp hb
        have := hs2 c hc
        split_ifs
        · rw [byte_val]
          omega
        · exact this
      · exact hs2
    · unfold ToLower
      rw [if_pos hs]
      split_ifs with h2
      · intro b hb
        obtain ⟨c, hc, rfl⟩ := List.mem_map.mp hb
        have := hs2 c hc
        split_ifs with h3
        · rw [byte_val]
          omega
        · exact h3
      · intro b hb hup
        apply h2
        rw [List.any_eq_true]
        exact ⟨b, hb, by simpa using hup⟩
  · have hout : ToLower tbl s = Map (unicode.ToLower tbl) s := by
      unfold ToLower
      rw [if_neg hs]
    obtain ⟨chunks, hc, hall⟩ := mapHead_chunks tbl htbl s.length [] s (Nat.le_refl _) (by simp)
    have hc2 : Map (unicode.ToLower tbl) s = chunks.flatten := hc
    rw [hout, hc2]
    by_cases ho : chunks.flatten.all (fun c => decide (c.val < RuneSelf)) = true
    · have ho2 : ∀ b ∈ chunks.flatten, b.val < 0x80 := by
        intro b hb
        simpa [RuneSelf] using List.all_eq_true.mp ho b hb
      apply toLower_of_ascii_lower _ _ ho2
      intro b hb
      obtain ⟨ch, hch, hbch⟩ := List.mem_flatten.mp hb
      exact fixedRune_ascii tbl ch (hall ch hch)
        (fun c hcc => ho2 c (List.mem_flatten.mpr ⟨ch, hch, hcc⟩)) b hbch
    · unfold ToLower
      rw [if_neg ho]
      have := mapHead_fixed (unicode.ToLower tbl) chunks hall chunks.flatten.length []
        (Nat.le_refl _)
      simpa [Map] using this

theorem lowerTable_bytes (tbl : Nat → Nat) (htbl : unicode.LowerTable tbl) :
    ∀ r, 0x80 ≤ r → ValidRune r = true → tbl r ≠ 0x20 ∧ ¬ (0x41 ≤ tbl r ∧ tbl r ≤ 0x5A) := by
  intro r hr hv
  obtain ⟨_, h2, h3⟩ := htbl r hr hv
  refine ⟨h2, ?_⟩
  intro hup
  unfold unicode.ToLower at h3
  rw [if_pos (by omega), if_pos hup] at h3
  omega

end strings
end Go

/-! ## The Go library model: `strings.TrimSpace` never lengthens a string -/

namespace Go
open utf8

namespace strings

theorem trimLeftFuncAux_length (f : Nat → Bool) (fuel : Nat) (s : GoString) :
    (trimLeftFuncAux f fuel s).length ≤ s.length := by
  induction fuel generalizing s with
  | zero => simp [trimLeftFuncAux]
  | succ n ih =>
    rcases s with _ | ⟨s0, t⟩
    · simp [trimLeftFuncAux]
    · simp only [trimLeftFuncAux]
      split_ifs
      · exact Nat.le_trans (ih _) (by simp only [List.length_drop]; omega)
      · exact Nat.le_refl _

theorem trimRightFunc_length (s : GoString) (f : Nat → Bool) :
    (TrimRightFunc s f).length ≤ s.length := by
  unfold TrimRightFunc
  dsimp only
  split_ifs <;> (rw [List.length_take]; exact Nat.min_le_right _ _)

theorem trimFunc_length (s : GoString) (f : Nat → Bool) :
    (TrimFunc s f).length ≤ s.length :=
  Nat.le_trans (trimRightFunc_length _ f) (trimLeftFuncAux_length f s.length s)

theorem trimSpaceRight_length (body rev : GoString) :
    (trimSpaceRight body rev).length ≤ body.length := by
  induction rev generalizing body with
  | nil => simp [trimSpaceRight]
  | cons c rest ih =>
    simp only [trimSpaceRight]
    split_ifs
    · exact trimRightFunc_length _ _
    · exact Nat.le_trans (ih _) (by simp)
    · exact Nat.le_refl _

theorem trimSpace_length (s : GoString) : (TrimSpace s).length ≤ s.length := by
  unfold TrimSpace
  induction s with
  | nil => simp [trimSpaceLeft]
  | cons c rest ih =>
    simp only [trimSpaceLeft]
    split_ifs
    · exact trimFunc_length _ _
    · exact Nat.le_trans ih (by simp)
    · exact trimSpaceRight_length _ _

end strings

theorem encodeRune_ascii (b : Byte) (h : b.val < 0x80) : EncodeRune b.val = [b] := by
  unfold EncodeRune
  rw [if_pos (by omega)]
  have : byte b.val = b := Fin.ext (by rw [byte_val]; omega)
  rw [this]

end Go

/-! ## The properties of the specification -/

namespace tools
open Go

theorem latin1CaseTable_lower : unicode.LowerTable latin1CaseTable := by
  intro r hr hv
  rw [validRune_iff] at hv
  by_cases h : 0xC0 ≤ r ∧ r ≤ 0xDE ∧ r ≠ 0xD7
  · have h1 : latin1CaseTable r = r + 0x20 := by
      unfold latin1CaseTable
      rw [if_pos h]
    have h2 : latin1CaseTable (r + 0x20) = r + 0x20 := by
      unfold latin1CaseTable
      rw [if_neg (by omega)]
    rw [h1]
    refine ⟨(validRune_iff _).mpr (by omega), by omega, ?_⟩
    unfold unicode.ToLower
    rw [if_neg (by omega), h2]
  · have h1 : latin1CaseTable r = r := by
      unfold latin1CaseTable
      rw [if_neg h]
    rw [h1]
    refine ⟨(validRune_iff _).mpr hv, by omega, ?_⟩
    unfold unicode.ToLower
    rw [if_neg (by omega), h1]

theorem colliding_suffix_aux (tbl : Nat → Nat) (baseUsername phone : GoString)
    (checkExists : GoString → Bool)
    (h : checkExists (strings.ToLower tbl (strings.ReplaceAll baseUsername 0x20 [])) = true) :
    (GenerateUniqueUsername tbl baseUsername phone checkExists).1 =
        strings.ToLower tbl (strings.ReplaceAll baseUsername 0x20 [])
          ++ GetPhoneLast4Digits phone ∧
      (GetPhoneLast4Digits phone = [] ∨ (GetPhoneLast4Digits phone).length = 4) := by
  constructor
  · by_cases hs : GetPhoneLast4Digits phone = []
    · simp [GenerateUniqueUsername, h, hs]
    · simp [GenerateUniqueUsername, h, hs]
  · unfold GetPhoneLast4Digits
    dsimp only
    split_ifs with hlen
    · exact Or.inl rfl
    · right
      rw [List.length_drop]
      omega

/-- C1, as the code has it: the username after `ValidateAndNormalizeUser` is `n`, or `n`
followed by the four-byte phone suffix, where `n` is the input username with every space
U+0020 removed and then lower-cased; `n` is lower case (`strings.ToLower` leaves it as it is,
and it holds no upper-case ASCII letter) and holds no space U+0020; and the username is
non-empty whenever the input username has a byte other than a space. -/
theorem username_is_normalised_base_with_suffix (tbl : Nat → Nat) (user : User)
    (d : GoString) (checkExists : GoString → Bool) (htbl : unicode.LowerTable tbl) :
    ((ValidateAndNormalizeUser tbl user d checkExists).1.Username =
          strings.ToLower tbl (strings.ReplaceAll user.Username 0x20 []) ∨
        ((ValidateAndNormalizeUser tbl user d checkExists).1.Username =
            strings.ToLower tbl (strings.ReplaceAll user.Username 0x20 [])
              ++ GetPhoneLast4Digits user.Mobile ∧
          (GetPhoneLast4Digits user.Mobile).length = 4)) ∧
      strings.ToLower tbl (strings.ToLower tbl (strings.ReplaceAll user.Username 0x20 []))
        = strings.ToLower tbl (strings.ReplaceAll user.Username 0x20 []) ∧
      (∀ b ∈ strings.ToLower tbl (strings.ReplaceAll user.Username 0x20 []),
        b.val ≠ 0x20 ∧ ¬ (0x41 ≤ b.val ∧ b.val ≤ 0x5A)) ∧
      ((∃ b ∈ user.Username, b ≠ 0x20) →
        (ValidateAndNormalizeUser tbl user d checkExists).1.Username ≠ []) := by
  have hbase : ∀ b ∈ strings.ReplaceAll user.Username 0x20 [], b.val ≠ 0x20 := by
    intro b hb
    rw [strings.replaceAll_eq_filter] at hb
    have := (List.mem_filter.mp hb).2
    simp only [decide_eq_true_eq] at this
    intro hv
    exact this (Fin.ext hv)
  have hshape : (GenerateUniqueUsername tbl user.Username user.Mobile checkExists).1 =
        strings.ToLower tbl (strings.ReplaceAll user.Username 0x20 []) ∨
      ((GenerateUniqueUsername tbl user.Username user.Mobile checkExists).1 =
          strings.ToLower tbl (strings.ReplaceAll user.Username 0x20 [])
            ++ GetPhoneLast4Digits user.Mobile ∧
        (GetPhoneLast4Digits user.Mobile).length = 4) := by
    by_cases hp : checkExists (strings.ToLower tbl (strings.ReplaceAll user.Username 0x20 []))
        = true
    · obtain ⟨hg, hs⟩ := colliding_suffix_aux tbl user.Username user.Mobile checkExists hp
      rcases hs with hs | hs
      · left
        rw [hg, hs]
        simp
      · right
        exact ⟨by rw [hg], hs⟩
    · left
      simp [GenerateUniqueUsername, hp]
  rw [vnu_username]
  refine ⟨hshape, strings.toLower_idem tbl htbl _,
    strings.toLower_bytes tbl (strings.lowerTable_bytes tbl htbl) _ hbase, ?_⟩
  rintro ⟨b, hb, hne⟩
  have hn : strings.ToLower tbl (strings.ReplaceAll user.Username 0x20 []) ≠ [] := by
    apply strings.toLower_ne_nil
    rw [strings.replaceAll_eq_filter]
    intro he
    have := List.filter_eq_nil_iff.mp he b hb
    simp at this
    exact hne this
  rcases hshape with h | ⟨h, _⟩
  · rw [h]
    exact hn
  · rw [h]
    simp [hn]

/-- C1, as the code has it, on the record of the test-suite: `WangYu` with `wangyu` taken
becomes `wangyu` followed by `6666`, and `wangyu` is lower case and free of spaces. -/
theorem username_is_normalised_base_with_suffix_witness :
    unicode.LowerTable latin1CaseTable ∧
      ((ValidateAndNormalizeUser latin1CaseTable
          ⟨str "WangYu", str "18237006666", str "WangYu@hzxb.com"⟩ hzxb
          (taken (str "wangyu"))).1.Username = str "wangyu6666") ∧
      strings.ToLower latin1CaseTable (str "WangYu") = str "wangyu" ∧
      (strings.ToLower latin1CaseTable
          (strings.ToLower latin1CaseTable (strings.ReplaceAll (str "WangYu") 0x20 []))
        = strings.ToLower latin1CaseTable (strings.ReplaceAll (str "WangYu") 0x20 []) ∧
      (∀ b ∈ strings.ToLower latin1CaseTable (strings.ReplaceAll (str "WangYu") 0x20 []),
        b.val ≠ 0x20 ∧ ¬ (0x41 ≤ b.val ∧ b.val ≤ 0x5A)) ∧
      ((∃ b ∈ str "WangYu", b ≠ 0x20) →
        (ValidateAndNormalizeUser latin1CaseTable
          ⟨str "WangYu", str "18237006666", str "WangYu@hzxb.com"⟩ hzxb
          (taken (str "wangyu"))).1.Username ≠ [])) :=
  ⟨latin1CaseTable_lower, by decide, by decide,
    (username_is_normalised_base_with_suffix latin1CaseTable
      ⟨str "WangYu", str "18237006666", str "WangYu@hzxb.com"⟩ hzxb (taken (str "wangyu"))
      latin1CaseTable_lower).2⟩

/-- C1 fails as stated: an empty or all-space username stays empty; a tab inside the
username is kept; and the phone suffix is appended verbatim, upper-case letters included, so
that lower-casing the result changes it. -/
theorem username_is_normalised_base_with_suffix_counterexample :
    (ValidateAndNormalizeUser latin1CaseTable ⟨[], str "18237005555", []⟩ hzxb
        nobody).1.Username = [] ∧
      (ValidateAndNormalizeUser latin1CaseTable ⟨str "  ", str "18237005555", []⟩ hzxb
        nobody).1.Username = [] ∧
      (∃ r ∈ utf8.runes (ValidateAndNormalizeUser latin1CaseTable
          ⟨str "wang\tyu", str "18237005555", []⟩ hzxb nobody).1.Username,
        unicode.IsSpace r = true) ∧
      (ValidateAndNormalizeUser latin1CaseTable ⟨str "wangyu", str "1823700ABCD", []⟩ hzxb
        (taken (str "wangyu"))).1.Username = str "wangyuABCD" ∧
      strings.ToLower latin1CaseTable (str "wangyuABCD") ≠ str "wangyuABCD" := by
  decide

theorem localPart_append_at (l dom : GoString) (h : (0x40 : Byte) ∉ l) :
    localPart (l ++ 0x40 :: dom) = l := by
  induction l with
  | nil => simp [localPart]
  | cons c t ih =>
    have hc : c ≠ 0x40 := fun e => h (by simp [e])
    have ht : (0x40 : Byte) ∉ t := fun e => h (by simp [e])
    have := ih ht
    simp only [localPart] at this ⊢
    rw [List.cons_append, List.takeWhile_cons, if_pos (by simpa using hc), this]

theorem accepted_bytes_runes (s : GoString)
    (h : ∀ b ∈ s, isAcceptedLocalRune b.val = true) :
    ∀ r ∈ utf8.runes s, isAcceptedLocalRune r = true := by
  have hascii : ∀ b ∈ s, b.val < 0x80 := by
    intro b hb
    have := (isAcceptedLocalRune_iff b.val).mp (h b hb)
    omega
  rw [runes_of_ascii s hascii]
  intro r hr
  obtain ⟨b, hb, rfl⟩ := List.mem_map.mp hr
  exact h b hb

theorem normalizeEmail_default_or_valid (e u d : GoString) :
    NormalizeEmail e u d = sprintfAt u d ∨
      (ValidateEmail (NormalizeEmail e u d) = true ∧
        ∀ r ∈ utf8.runes (localPart (NormalizeEmail e u d)), isAcceptedLocalRune r = true) := by
  by_cases hlen : (strings.Split e 0x40).length = 2
  · obtain ⟨l, rest, hs⟩ := List.exists_cons_of_ne_nil (strings.split_ne_nil e 0x40)
    rw [hs] at hlen
    rcases rest with _ | ⟨dom, _ | ⟨x, xs⟩⟩
    · simp at hlen
    · rw [normalizeEmail_of_pair e l dom u d hs]
      split_ifs with h1 h2
      · exact Or.inl rfl
      · right
        refine ⟨h2, ?_⟩
        have hnot : (0x40 : Byte) ∉ SanitizeEmailLocalPart l := by
          intro hm
          have := sanitize_accepted l _ hm
          revert this
          decide
        have hlp : localPart (sprintfAt (SanitizeEmailLocalPart l) dom) =
            SanitizeEmailLocalPart l := by
          rw [sprintfAt, List.append_assoc]
          exact localPart_append_at _ dom hnot
        rw [hlp]
        exact accepted_bytes_runes _ (sanitize_accepted l)
      · exact Or.inl rfl
    · simp at hlen
  · exact Or.inl (normalizeEmail_of_not_pair e u d hlen)

/-- C2, as the code has it: the mail after `ValidateAndNormalizeUser` is either the final
username, `@` and the default domain, which nothing validates, or it is accepted by
`ValidateEmail` and its local-part holds only ASCII letters, ASCII digits, `.`, `-` and
`_`. -/
theorem mail_is_default_or_valid (tbl : Nat → Nat) (user : User) (d : GoString)
    (checkExists : GoString → Bool) :
    (ValidateAndNormalizeUser tbl user d checkExists).1.Mail =
        (ValidateAndNormalizeUser tbl user d checkExists).1.Username ++ [0x40] ++ d ∨
      (ValidateEmail (ValidateAndNormalizeUser tbl user d checkExists).1.Mail = true ∧
        ∀ r ∈ utf8.runes (localPart (ValidateAndNormalizeUser tbl user d checkExists).1.Mail),
          isAcceptedLocalRune r = true) := by
  rw [vnu_username]
  by_cases hf : (GenerateUniqueUsername tbl user.Username user.Mobile checkExists).2 = true ∨
      user.Mail = [] ∨
      ∃ l dom, strings.Split user.Mail 0x40 = [l, dom] ∧ SanitizeEmailLocalPart l ≠ l
  · left
    rw [vnu_mail_forced tbl user d checkExists hf]
    rfl
  · simp only [not_or, not_exists, not_and, not_not, Bool.not_eq_true] at hf
    rw [vnu_mail_regular tbl user d checkExists hf.1 hf.2.1 hf.2.2]
    exact normalizeEmail_default_or_valid _ _ _

/-- C2 fails as stated: for username `wang+yu` and an empty mail the mail becomes
`wang+yu@hzxb.com`, which is non-empty, is rejected by `ValidateEmail`, and has `+` in its
local-part. -/
theorem mail_is_default_or_valid_counterexample :
    (ValidateAndNormalizeUser latin1CaseTable ⟨str "wang+yu", str "18237005555", []⟩ hzxb
        nobody).1.Mail = str "wang+yu@hzxb.com" ∧
      str "wang+yu@hzxb.com" ≠ [] ∧
      ValidateEmail (str "wang+yu@hzxb.com") = false ∧
      ¬ ∀ r ∈ utf8.runes (localPart (str "wang+yu@hzxb.com")), isAcceptedLocalRune r = true := by
  decide

/-- C3: when `GenerateUniqueUsername` on the record's username and mobile returns `(f, true)`,
the record after `ValidateAndNormalizeUser` has username `f` and mail `f + "@" + d`, whatever
the mail was before. -/
theorem suffixed_username_forces_default_mail (tbl : Nat → Nat) (user : User)
    (d : GoString) (checkExists : GoString → Bool) (f : GoString)
    (h : GenerateUniqueUsername tbl user.Username user.Mobile checkExists = (f, true)) :
    (ValidateAndNormalizeUser tbl user d checkExists).1.Username = f ∧
      (ValidateAndNormalizeUser tbl user d checkExists).1.Mail = f ++ [0x40] ++ d := by
  have h1 : (GenerateUniqueUsername tbl user.Username user.Mobile checkExists).1 = f := by
    rw [h]
  have h2 : (GenerateUniqueUsername tbl user.Username user.Mobile checkExists).2 = true := by
    rw [h]
  constructor
  · rw [vnu_username, h1]
  · rw [vnu_mail_forced tbl user d checkExists (Or.inl h2), h1]
    rfl

/-- C3, on the record of the test-suite: `WangYu` with mobile `18237006666`, `wangyu` taken,
becomes `wangyu6666` with mail `wangyu6666@hzxb.com`. -/
theorem suffixed_username_forces_default_mail_witness :
    GenerateUniqueUsername latin1CaseTable (str "WangYu") (str "18237006666")
        (taken (str "wangyu")) = (str "wangyu6666", true) ∧
      (ValidateAndNormalizeUser latin1CaseTable
          ⟨str "WangYu", str "18237006666", str "WangYu@hzxb.com"⟩ hzxb
          (taken (str "wangyu"))).1.Username = str "wangyu6666" ∧
      (ValidateAndNormalizeUser latin1CaseTable
          ⟨str "WangYu", str "18237006666", str "WangYu@hzxb.com"⟩ hzxb
          (taken (str "wangyu"))).1.Mail = str "wangyu6666" ++ [0x40] ++ hzxb ∧
      str "wangyu6666" ++ [0x40] ++ hzxb = str "wangyu6666@hzxb.com" :=
  ⟨by decide,
    (suffixed_username_forces_default_mail latin1CaseTable
      ⟨str "WangYu", str "18237006666", str "WangYu@hzxb.com"⟩ hzxb (taken (str "wangyu"))
      (str "wangyu6666") (by decide)).1,
    (suffixed_username_forces_default_mail latin1CaseTable
      ⟨str "WangYu", str "18237006666", str "WangYu@hzxb.com"⟩ hzxb (taken (str "wangyu"))
      (str "wangyu6666") (by decide)).2,
    by decide⟩

/-- C4: when the username comes back unmodified and the original mail is empty, or splits on
`@` into exactly two parts the first of which the sanitiser changes, the mail after
`ValidateAndNormalizeUser` is the final username, `@` and the default domain concatenated;
no validation takes part. -/
theorem unclean_or_empty_mail_forces_default_mail (tbl : Nat → Nat) (user : User)
    (d : GoString) (checkExists : GoString → Bool)
    (_hmod : (GenerateUniqueUsername tbl user.Username user.Mobile checkExists).2 = false)
    (hmail : user.Mail = [] ∨
      ∃ l dom, strings.Split user.Mail 0x40 = [l, dom] ∧ SanitizeEmailLocalPart l ≠ l) :
    (ValidateAndNormalizeUser tbl user d checkExists).1.Mail =
      (ValidateAndNormalizeUser tbl user d checkExists).1.Username ++ [0x40] ++ d := by
  rw [vnu_username, vnu_mail_forced tbl user d checkExists (Or.inr hmail)]
  rfl

/-- C4, on the records of the test-suite: the mails `wang·yu@hzxb.com`, `····@invalid` and
the empty mail all end as username, `@` and `hzxb.com`. -/
theorem unclean_or_empty_mail_forces_default_mail_witness :
    ((ValidateAndNormalizeUser latin1CaseTable
          ⟨str "wangyu", str "18237001122", str "wang·yu@hzxb.com"⟩ hzxb nobody).1.Mail =
        (ValidateAndNormalizeUser latin1CaseTable
          ⟨str "wangyu", str "18237001122", str "wang·yu@hzxb.com"⟩ hzxb nobody).1.Username
          ++ [0x40] ++ hzxb) ∧
      ((ValidateAndNormalizeUser latin1CaseTable
          ⟨str "lisi", str "18237004444", str "····@invalid"⟩ hzxb nobody).1.Mail =
        (ValidateAndNormalizeUser latin1CaseTable
          ⟨str "lisi", str "18237004444", str "····@invalid"⟩ hzxb nobody).1.Username
          ++ [0x40] ++ hzxb) ∧
      ((ValidateAndNormalizeUser latin1CaseTable
          ⟨str "wangwu", str "18237005555", []⟩ hzxb nobody).1.Mail =
        (ValidateAndNormalizeUser latin1CaseTable
          ⟨str "wangwu", str "18237005555", []⟩ hzxb nobody).1.Username ++ [0x40] ++ hzxb) ∧
      (ValidateAndNormalizeUser latin1CaseTable
          ⟨str "lisi", str "18237004444", str "····@invalid"⟩ hzxb nobody).1.Mail =
        str "lisi@hzxb.com" ∧
      (ValidateAndNormalizeUser latin1CaseTable
          ⟨str "wangwu", str "18237005555", []⟩ hzxb nobody).1.Mail = str "wangwu@hzxb.com" :=
  ⟨unclean_or_empty_mail_forces_default_mail latin1CaseTable
      ⟨str "wangyu", str "18237001122", str "wang·yu@hzxb.com"⟩ hzxb nobody (by decide)
      (Or.inr ⟨str "wang·yu", str "hzxb.com", by decide, by decide⟩),
    unclean_or_empty_mail_forces_default_mail latin1CaseTable
      ⟨str "lisi", str "18237004444", str "····@invalid"⟩ hzxb nobody (by decide)
      (Or.inr ⟨str "····", str "invalid", by decide, by decide⟩),
    unclean_or_empty_mail_forces_default_mail latin1CaseTable
      ⟨str "wangwu", str "18237005555", []⟩ hzxb nobody (by decide) (Or.inl rfl),
    by decide, by decide⟩

/-- C5: when the normalised username (spaces removed, lower-cased) is not reported as
existing, the mail is accepted by `ValidateEmail` and the sanitiser leaves its local-part
unchanged, `ValidateAndNormalizeUser` sets the username to the normalised one and keeps the
mail as it was. -/
theorem clean_valid_mail_is_kept (tbl : Nat → Nat) (user : User) (d : GoString)
    (checkExists : GoString → Bool)
    (hn : checkExists (strings.ToLower tbl (strings.ReplaceAll user.Username 0x20 [])) = false)
    (hv : ValidateEmail user.Mail = true)
    (hl : SanitizeEmailLocalPart (localPart user.Mail) = localPart user.Mail) :
    (ValidateAndNormalizeUser tbl user d checkExists).1.Username =
        strings.ToLower tbl (strings.ReplaceAll user.Username 0x20 []) ∧
      (ValidateAndNormalizeUser tbl user d checkExists).1.Mail = user.Mail := by
  have hgen : GenerateUniqueUsername tbl user.Username user.Mobile checkExists =
      (strings.ToLower tbl (strings.ReplaceAll user.Username 0x20 []), false) := by
    simp [GenerateUniqueUsername, hn]
  obtain ⟨l, dom, hs, hlne, he, _⟩ := validateEmail_split user.Mail hv
  have hlp : l = localPart user.Mail := split_head_eq_localPart user.Mail l [dom] hs
  have hne : user.Mail ≠ [] := by
    rw [he]
    simp
  constructor
  · rw [vnu_username, hgen]
  · rw [vnu_mail_regular tbl user d checkExists (by rw [hgen]) hne
      (fun l2 dom2 hs2 => by
        rw [split_head_eq_localPart user.Mail l2 [dom2] hs2]
        exact hl),
      normalizeEmail_of_pair user.Mail l dom _ d hs]
    have hsan : SanitizeEmailLocalPart l = l := by
      rw [hlp]
      exact hl
    have hjoin : sprintfAt l dom = user.Mail := by
      rw [he]
      simp [sprintfAt]
    rw [hsan, if_neg hlne, hjoin, if_pos hv]

/-- C5, on the record of the test-suite: `zhangsan` with mail `zhangsan@hzxb.com` and no
existing username stays as it is. -/
theorem clean_valid_mail_is_kept_witness :
    (ValidateAndNormalizeUser latin1CaseTable
        ⟨str "zhangsan", str "18237003333", str "zhangsan@hzxb.com"⟩ hzxb nobody).1.Username =
        strings.ToLower latin1CaseTable (strings.ReplaceAll (str "zhangsan") 0x20 []) ∧
      (ValidateAndNormalizeUser latin1CaseTable
        ⟨str "zhangsan", str "18237003333", str "zhangsan@hzxb.com"⟩ hzxb nobody).1.Mail =
        str "zhangsan@hzxb.com" ∧
      strings.ToLower latin1CaseTable (strings.ReplaceAll (str "zhangsan") 0x20 []) =
        str "zhangsan" :=
  ⟨(clean_valid_mail_is_kept latin1CaseTable
      ⟨str "zhangsan", str "18237003333", str "zhangsan@hzxb.com"⟩ hzxb nobody
      (by decide) (by decide) (by decide)).1,
    (clean_valid_mail_is_kept latin1CaseTable
      ⟨str "zhangsan", str "18237003333", str "zhangsan@hzxb.com"⟩ hzxb nobody
      (by decide) (by decide) (by decide)).2,
    by decide⟩

/-- C6: when the existence check reports the normalised base `n` (spaces removed,
lower-cased) as existing, `GenerateUniqueUsername` returns `n` followed by
`s = GetPhoneLast4Digits phone`, with the flag telling whether `s` is non-empty; `s` is either
empty (phone too short, collision left as it is) or four bytes long. -/
theorem colliding_username_gets_phone_suffix (tbl : Nat → Nat) (baseUsername phone : GoString)
    (checkExists : GoString → Bool)
    (h : checkExists (strings.ToLower tbl (strings.ReplaceAll baseUsername 0x20 [])) = true) :
    GenerateUniqueUsername tbl baseUsername phone checkExists =
        (strings.ToLower tbl (strings.ReplaceAll baseUsername 0x20 [])
            ++ GetPhoneLast4Digits phone,
          decide (GetPhoneLast4Digits phone ≠ [])) ∧
      (GetPhoneLast4Digits phone = [] ∨ (GetPhoneLast4Digits phone).length = 4) := by
  constructor
  · by_cases hs : GetPhoneLast4Digits phone = []
    · simp [GenerateUniqueUsername, h, hs]
    · simp [GenerateUniqueUsername, h, hs]
  · unfold GetPhoneLast4Digits
    dsimp only
    split_ifs with hlen
    · exact Or.inl rfl
    · right
      rw [List.length_drop]
      omega

/-- C6, on the cases of the test-suite: base `wangyu`, taken, with phone `18237009876` gives
`("wangyu9876", true)`, and with phone `123` gives `("wangyu", false)`. -/
theorem colliding_username_gets_phone_suffix_witness :
    GenerateUniqueUsername latin1CaseTable (str "wangyu") (str "18237009876")
        (taken (str "wangyu")) = (str "wangyu9876", true) ∧
      GenerateUniqueUsername latin1CaseTable (str "wangyu") (str "123")
        (taken (str "wangyu")) = (str "wangyu", false) :=
  ⟨(colliding_username_gets_phone_suffix latin1CaseTable (str "wangyu") (str "18237009876")
      (taken (str "wangyu")) (by decide)).1.trans (by decide),
    (colliding_username_gets_phone_suffix latin1CaseTable (str "wangyu") (str "123")
      (taken (str "wangyu")) (by decide)).1.trans (by decide)⟩

/-- C7: when the existence check does not report the normalised base `n` (spaces removed,
lower-cased) as existing, `GenerateUniqueUsername` returns `(n, false)`, whatever the
phone. -/
theorem free_username_is_returned_normalised (tbl : Nat → Nat) (baseUsername phone : GoString)
    (checkExists : GoString → Bool)
    (h : checkExists (strings.ToLower tbl (strings.ReplaceAll baseUsername 0x20 [])) = false) :
    GenerateUniqueUsername tbl baseUsername phone checkExists =
      (strings.ToLower tbl (strings.ReplaceAll baseUsername 0x20 []), false) := by
  simp [GenerateUniqueUsername, h]

/-- C7, on the cases of the test-suite: `WangYu`, `wang yu` and `WANGYU` all give
`wangyu`, unmodified. -/
theorem free_username_is_returned_normalised_witness :
    GenerateUniqueUsername latin1CaseTable (str "WangYu") (str "18237009876") nobody =
        (str "wangyu", false) ∧
      GenerateUniqueUsername latin1CaseTable (str "wang yu") (str "18237009876") nobody =
        (str "wangyu", false) ∧
      GenerateUniqueUsername latin1CaseTable (str "WANGYU") (str "18237009876") nobody =
        (str "wangyu", false) :=
  ⟨(free_username_is_returned_normalised latin1CaseTable (str "WangYu") (str "18237009876")
      nobody rfl).trans (by decide),
    (free_username_is_returned_normalised latin1CaseTable (str "wang yu") (str "18237009876")
      nobody rfl).trans (by decide),
    (free_username_is_returned_normalised latin1CaseTable (str "WANGYU") (str "18237009876")
      nobody rfl).trans (by decide)⟩

/-- C8: for an email that splits on `@` into exactly two parts `l` and `dom` with a non-empty
sanitised `l`, `NormalizeEmail` returns the sanitised `l`, `@` and `dom` when `ValidateEmail`
accepts that string, and `u + "@" + d` otherwise. -/
theorem normalizeEmail_sanitises_local_part (e l dom u d : GoString)
    (hs : strings.Split e 0x40 = [l, dom]) (hne : SanitizeEmailLocalPart l ≠ []) :
    NormalizeEmail e u d =
      if ValidateEmail (SanitizeEmailLocalPart l ++ [0x40] ++ dom) = true then
        SanitizeEmailLocalPart l ++ [0x40] ++ dom
      else u ++ [0x40] ++ d := by
  rw [normalizeEmail_of_pair e l dom u d hs, if_neg hne]
  rfl

/-- C8, on the cases of the test-suite: `wang·yu@hzxb.com` becomes `wangyu@hzxb.com`, and
`wang_123@hzxb.com` is returned unchanged. -/
theorem normalizeEmail_sanitises_local_part_witness :
    NormalizeEmail (str "wang·yu@hzxb.com") (str "wangyu") hzxb = str "wangyu@hzxb.com" ∧
      NormalizeEmail (str "wang_123@hzxb.com") (str "wangyu") hzxb = str "wang_123@hzxb.com" :=
  ⟨(normalizeEmail_sanitises_local_part (str "wang·yu@hzxb.com") (str "wang·yu")
      (str "hzxb.com") (str "wangyu") hzxb (by decide) (by decide)).trans (by decide),
    (normalizeEmail_sanitises_local_part (str "wang_123@hzxb.com") (str "wang_123")
      (str "hzxb.com") (str "wangyu") hzxb (by decide) (by decide)).trans (by decide)⟩

/-- C9: `NormalizeEmail` of the empty email is `u + "@" + d`, and so is `NormalizeEmail` of
every email that does not contain exactly one `@`. -/
theorem normalizeEmail_defaults_without_single_at (u d : GoString) :
    NormalizeEmail [] u d = u ++ [0x40] ++ d ∧
      ∀ e : GoString, e.count 0x40 ≠ 1 → NormalizeEmail e u d = u ++ [0x40] ++ d := by
  constructor
  · simp [NormalizeEmail, sprintfAt]
  · intro e he
    rw [normalizeEmail_of_not_pair e u d (by rw [strings.split_length]; omega)]
    rfl

/-- C9, on the case of the test-suite: `invalidemail` has no `@` and becomes
`wangyu@hzxb.com`. -/
theorem normalizeEmail_defaults_without_single_at_witness :
    (str "invalidemail").count 0x40 ≠ 1 ∧
      NormalizeEmail (str "invalidemail") (str "wangyu") hzxb = str "wangyu@hzxb.com" :=
  ⟨by decide,
    ((normalizeEmail_defaults_without_single_at (str "wangyu") hzxb).2 (str "invalidemail")
      (by decide)).trans (by decide)⟩

/-- C10: when no character of the local-part of the email (the text before `@`) is accepted
by the sanitiser, `NormalizeEmail` returns `u + "@" + d`, valid or not. -/
theorem normalizeEmail_defaults_on_unusable_local_part (e u d : GoString)
    (h : ∀ r ∈ utf8.runes (localPart e), isAcceptedLocalRune r = false) :
    NormalizeEmail e u d = u ++ [0x40] ++ d := by
  by_cases hlen : (strings.Split e 0x40).length = 2
  · obtain ⟨l, rest, hs⟩ := List.exists_cons_of_ne_nil (strings.split_ne_nil e 0x40)
    rw [hs] at hlen
    rcases rest with _ | ⟨dom, _ | ⟨x, xs⟩⟩
    · simp at hlen
    · have hl : l = localPart e := split_head_eq_localPart e l [dom] hs
      rw [normalizeEmail_of_pair e l dom u d hs, hl, sanitize_eq_nil_of_runes _ h, if_pos rfl]
      rfl
    · simp at hlen
  · rw [normalizeEmail_of_not_pair e u d hlen]
    rfl

/-- C10, on the case of the test-suite: `····@test.com` becomes `wangyu@hzxb.com`. -/
theorem normalizeEmail_defaults_on_unusable_local_part_witness :
    (∀ r ∈ utf8.runes (localPart (str "····@test.com")), isAcceptedLocalRune r = false) ∧
      NormalizeEmail (str "····@test.com") (str "wangyu") hzxb = str "wangyu@hzxb.com" :=
  ⟨by decide,
    (normalizeEmail_defaults_on_unusable_local_part (str "····@test.com") (str "wangyu") hzxb
      (by decide)).trans (by decide)⟩

theorem runesAux_filter (fuel : Nat) (s : GoString) (hlen : s.length ≤ fuel) :
    (utf8.runesAux fuel s).filter isAcceptedLocalRune =
      (s.filter fun b => isAcceptedLocalRune b.val).map fun b => b.val := by
  induction fuel generalizing s with
  | zero =>
    have : s = [] := List.length_eq_zero.mp (Nat.le_zero.mp hlen)
    subst this
    rfl
  | succ n ih =>
    rcases s with _ | ⟨s0, t⟩
    · rfl
    · by_cases h0 : s0.val < 0x80
      · simp only [utf8.runesAux, decode_ascii s0 t h0, List.drop_succ_cons, List.drop_zero,
          List.filter_cons]
        rw [ih t (by simpa using hlen)]
        by_cases hm : isAcceptedLocalRune s0.val = true <;> simp [hm]
      · have hd := decode_nonascii s0 t (by omega)
        have hw := decode_width s0 t
        have hnot : ∀ r, 0x80 ≤ r → isAcceptedLocalRune r = false := by
          intro r hr
          have : ¬ isAcceptedLocalRune r = true := by
            rw [isAcceptedLocalRune_iff]
            omega
          simpa using this
        have hlen2 : ((s0 :: t).drop (utf8.DecodeRuneInString (s0 :: t)).2).length ≤ n := by
          have h1 := hw.1
          simp only [List.length_drop, List.length_cons] at hlen ⊢
          omega
        simp only [utf8.runesAux]
        rw [List.filter_cons, hnot _ hd.1, ih _ hlen2]
        have hsplit := List.take_append_drop (utf8.DecodeRuneInString (s0 :: t)).2 (s0 :: t)
        have htake : ((s0 :: t).take (utf8.DecodeRuneInString (s0 :: t)).2).filter
            (fun b => isAcceptedLocalRune b.val) = [] := by
          rw [List.filter_eq_nil_iff]
          intro b hb
          simp [hnot _ (hd.2 b hb)]
        conv_rhs => rw [← hsplit, List.filter_append, htake, List.nil_append]
        simp

/-- C13: `SanitizeEmailLocalPart s` is `s` with every character deleted that is not an ASCII
letter, an ASCII digit, `.`, `-` or `_`, the others kept in their order: it is `s` filtered
by the accepted set, byte by byte and character by character; and it is empty when no
character of `s` is accepted. -/
theorem sanitize_is_filter_by_accepted_set (s : GoString) :
    SanitizeEmailLocalPart s = s.filter (fun b => isAcceptedLocalRune b.val) ∧
      utf8.runes (SanitizeEmailLocalPart s) = (utf8.runes s).filter isAcceptedLocalRune ∧
      ((∀ r ∈ utf8.runes s, isAcceptedLocalRune r = false) → SanitizeEmailLocalPart s = []) := by
  refine ⟨sanitize_eq_filter s, ?_, sanitize_eq_nil_of_runes s⟩
  have hascii : ∀ b ∈ SanitizeEmailLocalPart s, b.val < 0x80 := by
    intro b hb
    have := (isAcceptedLocalRune_iff b.val).mp (sanitize_accepted s b hb)
    omega
  rw [runes_of_ascii _ hascii, sanitize_eq_filter]
  exact (runesAux_filter s.length s (Nat.le_refl _)).symm

/-- C13, on the cases of the test-suite: `wang·yu@test` gives `wangyutest`, `王雨wangyu`
gives `wangyu`, and `····`, which has no accepted character, gives the empty string. -/
theorem sanitize_is_filter_by_accepted_set_witness :
    (∀ r ∈ utf8.runes (str "····"), isAcceptedLocalRune r = false) ∧
      SanitizeEmailLocalPart (str "····") = [] ∧
      SanitizeEmailLocalPart (str "wang·yu@test") = str "wangyutest" ∧
      SanitizeEmailLocalPart (str "王雨wangyu") = str "wangyu" :=
  ⟨by decide, (sanitize_is_filter_by_accepted_set (str "····")).2.2 (by decide),
    (sanitize_is_filter_by_accepted_set (str "wang·yu@test")).1.trans (by decide),
    (sanitize_is_filter_by_accepted_set (str "王雨wangyu")).1.trans (by decide)⟩

/-- C14: `SanitizeEmailLocalPart` is idempotent. -/
theorem sanitize_idempotent (s : GoString) :
    SanitizeEmailLocalPart (SanitizeEmailLocalPart s) = SanitizeEmailLocalPart s := by
  rw [sanitize_eq_filter (SanitizeEmailLocalPart s), sanitize_eq_filter s, List.filter_filter]
  simp

/-- C17: `ValidateAndNormalizeUser` returns no error, whatever the record, the default domain
and the existence check. -/
theorem validateAndNormalizeUser_returns_nil (tbl : Nat → Nat) (user : User) (d : GoString)
    (checkExists : GoString → Bool) :
    (ValidateAndNormalizeUser tbl user d checkExists).2 = none := by
  unfold ValidateAndNormalizeUser
  dsimp only
  split_ifs <;> rfl

theorem emailLocalClass_eq (x : Nat) : emailLocalClass.matchRune x = isGrammarLocalRune x := by
  rw [Bool.eq_iff_iff]
  simp only [regexp.CharClass.matchRune, emailLocalClass, isGrammarLocalRune, List.any_cons,
    List.any_nil, Bool.or_false, bne_iff_ne, ne_eq, Bool.or_eq_true, Bool.and_eq_true,
    decide_eq_true_eq, Bool.not_eq_false]
  omega

theorem emailDomainClass_eq (x : Nat) :
    emailDomainClass.matchRune x = isGrammarDomainRune x := by
  rw [Bool.eq_iff_iff]
  simp only [regexp.CharClass.matchRune, emailDomainClass, isGrammarDomainRune, List.any_cons,
    List.any_nil, Bool.or_false, bne_iff_ne, ne_eq, Bool.or_eq_true, Bool.and_eq_true,
    decide_eq_true_eq, Bool.not_eq_false]
  omega

theorem emailTldClass_eq (x : Nat) : emailTldClass.matchRune x = isAsciiLetter x := by
  rw [Bool.eq_iff_iff]
  simp only [regexp.CharClass.matchRune, emailTldClass, isAsciiLetter, List.any_cons,
    List.any_nil, Bool.or_false, bne_iff_ne, ne_eq, Bool.or_eq_true, Bool.and_eq_true,
    decide_eq_true_eq, Bool.not_eq_false]

theorem validateEmail_iff_isGrammarEmail (e : GoString) :
    ValidateEmail e = true ↔ IsGrammarEmail e := by
  constructor
  · intro h
    obtain ⟨l, d, t, hr, hl1, hd1, ht1⟩ := validateEmail_runes e h
    obtain ⟨l1, r1, rfl, hl2, hr2⟩ := List.map_eq_append_iff.mp hr
    rcases r1 with _ | ⟨a, r2⟩
    · simp at hr2
    · simp only [List.map_cons, List.cons.injEq] at hr2
      obtain ⟨ha, hr3⟩ := hr2
      obtain ⟨d1, r3, rfl, hd2, hr4⟩ := List.map_eq_append_iff.mp hr3
      rcases r3 with _ | ⟨b, t1⟩
      · simp at hr4
      · simp only [List.map_cons, List.cons.injEq] at hr4
        obtain ⟨hb, ht2⟩ := hr4
        have ha2 : a = 0x40 := Fin.ext ha
        have hb2 : b = 0x2E := Fin.ext hb
        subst ha2 hb2 hl2 hd2 ht2
        refine ⟨l1, d1, t1, by simp, ⟨?_, ?_⟩, ⟨?_, ?_⟩, ⟨?_, ?_⟩⟩
        · intro he
          exact hl1.1 (by rw [he]; rfl)
        · intro c hc
          rw [← emailLocalClass_eq]
          exact hl1.2 _ (List.mem_map.mpr ⟨c, hc, rfl⟩)
        · intro he
          exact hd1.1 (by rw [he]; rfl)
        · intro c hc
          rw [← emailDomainClass_eq]
          exact hd1.2 _ (List.mem_map.mpr ⟨c, hc, rfl⟩)
        · simpa using ht1.1
        · intro c hc
          rw [← emailTldClass_eq]
          exact ht1.2 _ (List.mem_map.mpr ⟨c, hc, rfl⟩)
  · rintro ⟨l, d, t, rfl, ⟨hl1, hl2⟩, ⟨hd1, hd2⟩, ⟨ht1, ht2⟩⟩
    have hl3 : ∀ b ∈ l, emailLocalClass.matchRune b.val = true := by
      intro b hb
      rw [emailLocalClass_eq]
      exact hl2 b hb
    have hd3 : ∀ b ∈ d, emailDomainClass.matchRune b.val = true := by
      intro b hb
      rw [emailDomainClass_eq]
      exact hd2 b hb
    have ht3 : ∀ b ∈ t, emailTldClass.matchRune b.val = true := by
      intro b hb
      rw [emailTldClass_eq]
      exact ht2 b hb
    have hascii : ∀ b ∈ l ++ [0x40] ++ d ++ [0x2E] ++ t, b.val < 0x80 := by
      intro b hb
      simp only [List.mem_append, List.mem_singleton] at hb
      rcases hb with (((hb | rfl) | hb) | rfl) | hb
      · exact (emailLocalClass_bound _ (hl3 b hb)).1
      · decide
      · exact (emailDomainClass_bound _ (hd3 b hb)).1
      · decide
      · exact (emailTldClass_bound _ (ht3 b hb)).1
    unfold ValidateEmail regexp.MatchString
    rw [regexp.matchRunes_iff_lang, runes_of_ascii _ hascii, lang_emailRegex]
    refine ⟨l.map (fun b => b.val), d.map (fun b => b.val), t.map (fun b => b.val),
      by simp; decide,
      ⟨by simpa using hl1, ?_⟩, ⟨by simpa using hd1, ?_⟩, ⟨by simpa using ht1, ?_⟩⟩
    · intro x hx
      obtain ⟨b, hb, rfl⟩ := List.mem_map.mp hx
      exact hl3 b hb
    · intro x hx
      obtain ⟨b, hb, rfl⟩ := List.mem_map.mp hx
      exact hd3 b hb
    · intro x hx
      obtain ⟨b, hb, rfl⟩ := List.mem_map.mp hx
      exact ht3 b hb

/-- C11: `ValidateEmail e` is true exactly when `e` is `local + "@" + domain + "." + tld` with
one or more local-part characters (ASCII letters, digits, `.`, `_`, `%`, `-`), one or more
domain characters (ASCII letters, digits, `.`, `-`) and two or more ASCII letters. -/
theorem validateEmail_iff_grammar (e : GoString) :
    ValidateEmail e = true ↔
      ∃ l d t : GoString, e = l ++ [0x40] ++ d ++ [0x2E] ++ t ∧
        (l ≠ [] ∧ ∀ b ∈ l, isGrammarLocalRune b.val = true) ∧
        (d ≠ [] ∧ ∀ b ∈ d, isGrammarDomainRune b.val = true) ∧
        (2 ≤ t.length ∧ ∀ b ∈ t, isAsciiLetter b.val = true) :=
  validateEmail_iff_isGrammarEmail e

theorem afterAt_append_at (l r : GoString) (h : (0x40 : Byte) ∉ l) :
    afterAt (l ++ 0x40 :: r) = r := by
  induction l with
  | nil => simp [afterAt]
  | cons c t ih =>
    have hc : c ≠ 0x40 := fun e => h (by simp [e])
    have ht : (0x40 : Byte) ∉ t := fun e => h (by simp [e])
    have := ih ht
    simp only [afterAt] at this ⊢
    rw [List.cons_append, List.dropWhile_cons, if_pos (by simpa using hc), this]

theorem grammar_parts (e : GoString) (h : IsGrammarEmail e) :
    ∃ l r : GoString, e = l ++ 0x40 :: r ∧ (0x40 : Byte) ∉ l ∧ (0x40 : Byte) ∉ r ∧
      (0x25 : Byte) ∉ r ∧ EndsInDotLetters r ∧ l ≠ [] ∧
      ∀ b ∈ l, isGrammarLocalRune b.val = true := by
  obtain ⟨l, d, t, rfl, ⟨hl1, hl2⟩, ⟨_, hd2⟩, ⟨ht1, ht2⟩⟩ := h
  have hd3 : ∀ c : Byte, c = 0x40 ∨ c = 0x25 → c ∉ d := by
    intro c hc hm
    have := hd2 c hm
    rcases hc with rfl | rfl <;> revert this <;> decide
  have ht3 : ∀ c : Byte, c = 0x40 ∨ c = 0x25 → c ∉ t := by
    intro c hc hm
    have := ht2 c hm
    rcases hc with rfl | rfl <;> revert this <;> decide
  refine ⟨l, d ++ [0x2E] ++ t, by simp, ?_, ?_, ?_, ⟨d, t, rfl, ht1, ht2⟩, hl1, hl2⟩
  · intro hm
    have := hl2 _ hm
    revert this
    decide
  · intro hm
    simp only [List.mem_append, List.mem_singleton] at hm
    rcases hm with (hm | hm) | hm
    · exact hd3 _ (Or.inl rfl) hm
    · revert hm
      decide
    · exact ht3 _ (Or.inl rfl) hm
  · intro hm
    simp only [List.mem_append, List.mem_singleton] at hm
    rcases hm with (hm | hm) | hm
    · exact hd3 _ (Or.inr rfl) hm
    · revert hm
      decide
    · exact ht3 _ (Or.inr rfl) hm

theorem validateEmail_count_at (e : GoString) (h : ValidateEmail e = true) :
    e.count 0x40 = 1 := by
  obtain ⟨l, r, rfl, hl, hr, _⟩ := grammar_parts e ((validateEmail_iff_isGrammarEmail e).mp h)
  rw [List.count_append, List.count_cons_self, List.count_eq_zero_of_not_mem hl,
    List.count_eq_zero_of_not_mem hr]

/-- C12: `ValidateEmail` rejects every string that does not contain exactly one `@`, and
every string whose part after the `@` does not end in a `.` followed by at least two ASCII
letters. -/
theorem validateEmail_rejects_malformed (e : GoString) :
    (e.count 0x40 ≠ 1 → ValidateEmail e = false) ∧
      (¬ EndsInDotLetters (afterAt e) → ValidateEmail e = false) := by
  constructor
  · intro hc
    by_contra hv
    exact hc (validateEmail_count_at e (by simpa using hv))
  · intro hd
    by_contra hv
    have hv2 : ValidateEmail e = true := by simpa using hv
    obtain ⟨l, r, rfl, hl, _, _, hr, _⟩ :=
      grammar_parts e ((validateEmail_iff_isGrammarEmail e).mp hv2)
    rw [afterAt_append_at l r hl] at hd
    exact hd hr

/-- C12, on the cases of the test-suite: `wangyuhzxb.com` has no `@`, and the parts after the
`@` of `wangyu@` and `wangyu@hzxb` hold no `.`; all three are rejected. -/
theorem validateEmail_rejects_malformed_witness :
    ((str "wangyuhzxb.com").count 0x40 ≠ 1 ∧ ValidateEmail (str "wangyuhzxb.com") = false) ∧
      (¬ EndsInDotLetters (afterAt (str "wangyu@")) ∧ ValidateEmail (str "wangyu@") = false) ∧
      (¬ EndsInDotLetters (afterAt (str "wangyu@hzxb")) ∧
        ValidateEmail (str "wangyu@hzxb") = false) :=
  have h1 : ¬ EndsInDotLetters (afterAt (str "wangyu@")) := by
    rintro ⟨pre, t, h, _⟩
    have hm : (0x2E : Byte) ∈ afterAt (str "wangyu@") := by
      rw [h]
      simp
    revert hm
    decide
  have h2 : ¬ EndsInDotLetters (afterAt (str "wangyu@hzxb")) := by
    rintro ⟨pre, t, h, _⟩
    have hm : (0x2E : Byte) ∈ afterAt (str "wangyu@hzxb") := by
      rw [h]
      simp
    revert hm
    decide
  ⟨⟨by decide, (validateEmail_rejects_malformed (str "wangyuhzxb.com")).1 (by decide)⟩,
    ⟨h1, (validateEmail_rejects_malformed (str "wangyu@")).2 h1⟩,
    ⟨h2, (validateEmail_rejects_malformed (str "wangyu@hzxb")).2 h2⟩⟩

/-- C19: `NormalizeEmail e u d` is `u + "@" + d`, or it is accepted by `ValidateEmail`, has a
single `@`, holds only ASCII letters, digits, `.`, `-` and `_` before that `@`, and holds no
`%` anywhere. -/
theorem normalizeEmail_default_or_clean_valid (e u d : GoString) :
    NormalizeEmail e u d = u ++ [0x40] ++ d ∨
      (ValidateEmail (NormalizeEmail e u d) = true ∧
        (NormalizeEmail e u d).count 0x40 = 1 ∧
        (∀ r ∈ utf8.runes (localPart (NormalizeEmail e u d)), isAcceptedLocalRune r = true) ∧
        (0x25 : Byte) ∉ NormalizeEmail e u d) := by
  rcases normalizeEmail_default_or_valid e u d with h | ⟨hv, hl⟩
  · left
    rw [h]
    rfl
  · right
    refine ⟨hv, validateEmail_count_at _ hv, hl, ?_⟩
    obtain ⟨l, r, he, hnl, _, hr, _, _, hg⟩ :=
      grammar_parts _ ((validateEmail_iff_isGrammarEmail _).mp hv)
    rw [he] at hl ⊢
    rw [localPart_append_at l r hnl] at hl
    intro hm
    simp only [List.mem_append, List.mem_cons] at hm
    rcases hm with hm | hm | hm
    · have hascii : ∀ b ∈ l, b.val < 0x80 := by
        intro b hb
        have := hg b hb
        rw [← emailLocalClass_eq] at this
        exact (emailLocalClass_bound _ this).1
      rw [runes_of_ascii l hascii] at hl
      have := hl _ (List.mem_map.mpr ⟨_, hm, rfl⟩)
      revert this
      decide
    · revert hm
      decide
    · exact hr hm

theorem normalizeEmail_of_clean (e u d : GoString)
    (hclean : ∀ l dom, strings.Split e 0x40 = [l, dom] → SanitizeEmailLocalPart l = l) :
    NormalizeEmail e u d = sprintfAt u d ∨
      (NormalizeEmail e u d = e ∧ ValidateEmail e = true) := by
  by_cases hlen : (strings.Split e 0x40).length = 2
  · obtain ⟨l, rest, hs⟩ := List.exists_cons_of_ne_nil (strings.split_ne_nil e 0x40)
    rw [hs] at hlen
    rcases rest with _ | ⟨dom, _ | ⟨x, xs⟩⟩
    · simp at hlen
    · have he : e = l ++ 0x40 :: dom := (strings.split_eq_pair e 0x40 l dom hs).1
      have hjoin : sprintfAt l dom = e := by
        rw [he]
        simp [sprintfAt]
      rw [normalizeEmail_of_pair e l dom u d hs, hclean l dom hs, hjoin]
      split_ifs with h1 h2
      · exact Or.inl rfl
      · exact Or.inr ⟨rfl, h2⟩
      · exact Or.inl rfl
    · simp at hlen
  · exact Or.inl (normalizeEmail_of_not_pair e u d hlen)

theorem vnu_mail_default_or_original (tbl : Nat → Nat) (user : User) (d : GoString)
    (p : GoString → Bool) :
    (ValidateAndNormalizeUser tbl user d p).1.Mail =
        sprintfAt (GenerateUniqueUsername tbl user.Username user.Mobile p).1 d ∨
      ((ValidateAndNormalizeUser tbl user d p).1.Mail = user.Mail ∧
        (GenerateUniqueUsername tbl user.Username user.Mobile p).2 = false ∧
        ValidateEmail user.Mail = true) := by
  by_cases hf : (GenerateUniqueUsername tbl user.Username user.Mobile p).2 = true ∨
      user.Mail = [] ∨
      ∃ l dom, strings.Split user.Mail 0x40 = [l, dom] ∧ SanitizeEmailLocalPart l ≠ l
  · exact Or.inl (vnu_mail_forced tbl user d p hf)
  · simp only [not_or, not_exists, not_and, not_not, Bool.not_eq_true] at hf
    rw [vnu_mail_regular tbl user d p hf.1 hf.2.1 hf.2.2]
    rcases normalizeEmail_of_clean user.Mail
        (GenerateUniqueUsername tbl user.Username user.Mobile p).1 d hf.2.2 with h | ⟨h1, h2⟩
    · exact Or.inl h
    · exact Or.inr ⟨h1, hf.1, h2⟩

/-- C18: the mail after `ValidateAndNormalizeUser` is either the final username, `@` and the
default domain, or the original mail; and when it is the original mail and that differs from
the default form, the username was not suffixed and `ValidateEmail` accepts the original
mail.  A sanitised rewrite of the original address never comes out. -/
theorem mail_is_default_or_original (tbl : Nat → Nat) (user : User) (d : GoString)
    (checkExists : GoString → Bool) :
    ((ValidateAndNormalizeUser tbl user d checkExists).1.Mail =
          (ValidateAndNormalizeUser tbl user d checkExists).1.Username ++ [0x40] ++ d ∨
        (ValidateAndNormalizeUser tbl user d checkExists).1.Mail = user.Mail) ∧
      ((ValidateAndNormalizeUser tbl user d checkExists).1.Mail = user.Mail →
        user.Mail ≠ (ValidateAndNormalizeUser tbl user d checkExists).1.Username ++ [0x40] ++ d →
        (GenerateUniqueUsername tbl user.Username user.Mobile checkExists).2 = false ∧
          ValidateEmail user.Mail = true) := by
  rw [vnu_username]
  rcases vnu_mail_default_or_original tbl user d checkExists with h | ⟨h1, h2, h3⟩
  · refine ⟨Or.inl h, ?_⟩
    intro h4 h5
    rw [h] at h4
    exact absurd h4.symm h5
  · exact ⟨Or.inr h1, fun _ _ => ⟨h2, h3⟩⟩

/-- C18, on the record of the test-suite: `zhangsan` keeps the mail `zhangsan@example.org`,
which is not the default form; the username was not suffixed and the mail is valid. -/
theorem mail_is_default_or_original_witness :
    (ValidateAndNormalizeUser latin1CaseTable
        ⟨str "zhangsan", str "18237003333", str "zhangsan@example.org"⟩ hzxb nobody).1.Mail =
        str "zhangsan@example.org" ∧
      str "zhangsan@example.org" ≠
        (ValidateAndNormalizeUser latin1CaseTable
          ⟨str "zhangsan", str "18237003333", str "zhangsan@example.org"⟩ hzxb
          nobody).1.Username ++ [0x40] ++ hzxb ∧
      (GenerateUniqueUsername latin1CaseTable (str "zhangsan") (str "18237003333") nobody).2
        = false ∧
      ValidateEmail (str "zhangsan@example.org") = true :=
  ⟨by decide, by decide,
    (mail_is_default_or_original latin1CaseTable
      ⟨str "zhangsan", str "18237003333", str "zhangsan@example.org"⟩ hzxb nobody).2
      (by decide) (by decide)⟩

theorem vnu_mail_congr (tbl : Nat → Nat) (u1 u2 : User) (d : GoString) (p : GoString → Bool)
    (hg : GenerateUniqueUsername tbl u1.Username u1.Mobile p =
      GenerateUniqueUsername tbl u2.Username u2.Mobile p)
    (hm : u1.Mail = u2.Mail) :
    (ValidateAndNormalizeUser tbl u1 d p).1.Mail = (ValidateAndNormalizeUser tbl u2 d p).1.Mail := by
  unfold ValidateAndNormalizeUser
  dsimp only
  rw [hg, hm]
  split_ifs <;> rfl

theorem normalised_username_is_fixed (tbl : Nat → Nat) (htbl : unicode.LowerTable tbl)
    (name : GoString) :
    strings.ToLower tbl (strings.ReplaceAll
        (strings.ToLower tbl (strings.ReplaceAll name 0x20 [])) 0x20 []) =
      strings.ToLower tbl (strings.ReplaceAll name 0x20 []) := by
  have hbase : ∀ b ∈ strings.ReplaceAll name 0x20 [], b.val ≠ 0x20 := by
    intro b hb
    rw [strings.replaceAll_eq_filter] at hb
    have := (List.mem_filter.mp hb).2
    simp only [decide_eq_true_eq] at this
    intro hv
    exact this (Fin.ext hv)
  have hno := strings.toLower_bytes tbl (strings.lowerTable_bytes tbl htbl) _ hbase
  have hrep : strings.ReplaceAll (strings.ToLower tbl (strings.ReplaceAll name 0x20 [])) 0x20 []
      = strings.ToLower tbl (strings.ReplaceAll name 0x20 []) := by
    rw [strings.replaceAll_eq_filter, List.filter_eq_self]
    intro b hb
    have := (hno b hb).1
    simp only [decide_eq_true_eq]
    intro he
    rw [he] at this
    exact this rfl
  rw [hrep, strings.toLower_idem tbl htbl]

/-- C20: with an existence check that reports no username as existing, applying
`ValidateAndNormalizeUser` to the record it produced changes neither the username nor the
mail (the case table being that of the library: lower-case images are valid, are not the
space, and are their own lower case). -/
theorem validateAndNormalizeUser_idempotent_on_empty_store (tbl : Nat → Nat) (user : User)
    (d : GoString) (htbl : unicode.LowerTable tbl) :
    (ValidateAndNormalizeUser tbl (ValidateAndNormalizeUser tbl user d (fun _ => false)).1 d
          (fun _ => false)).1.Username =
        (ValidateAndNormalizeUser tbl user d (fun _ => false)).1.Username ∧
      (ValidateAndNormalizeUser tbl (ValidateAndNormalizeUser tbl user d (fun _ => false)).1 d
          (fun _ => false)).1.Mail =
        (ValidateAndNormalizeUser tbl user d (fun _ => false)).1.Mail := by
  have hgen : ∀ name mobile : GoString,
      GenerateUniqueUsername tbl name mobile (fun _ => false) =
        (strings.ToLower tbl (strings.ReplaceAll name 0x20 []), false) := by
    intro name mobile
    simp [GenerateUniqueUsername]
  have hu1 : (ValidateAndNormalizeUser tbl user d (fun _ => false)).1.Username =
      strings.ToLower tbl (strings.ReplaceAll user.Username 0x20 []) := by
    rw [vnu_username, hgen]
  have hg2 : GenerateUniqueUsername tbl
        (ValidateAndNormalizeUser tbl user d (fun _ => false)).1.Username
        (ValidateAndNormalizeUser tbl user d (fun _ => false)).1.Mobile (fun _ => false) =
      GenerateUniqueUsername tbl user.Username user.Mobile (fun _ => false) := by
    rw [hgen, hgen, hu1, normalised_username_is_fixed tbl htbl]
  constructor
  · rw [vnu_username, hg2, vnu_username]
  · rcases vnu_mail_default_or_original tbl user d (fun _ => false) with h1 | ⟨h1, _, _⟩
    · rcases vnu_mail_default_or_original tbl
          (ValidateAndNormalizeUser tbl user d (fun _ => false)).1 d (fun _ => false)
        with h2 | ⟨h2, _, _⟩
      · rw [h2, hg2, h1]
      · exact h2
    · exact vnu_mail_congr tbl _ user d _ hg2 h1

/-- C20, on a record whose name has a space and capitals and whose mail needs cleaning:
the second application leaves `wangyu` and `wangyu@hzxb.com` as they are. -/
theorem validateAndNormalizeUser_idempotent_on_empty_store_witness :
    unicode.LowerTable latin1CaseTable ∧
      (ValidateAndNormalizeUser latin1CaseTable
          ⟨str "Wang Yu", str "18237007777", str "wang·yu@hzxb.com"⟩ hzxb
          (fun _ => false)).1 = ⟨str "wangyu", str "18237007777", str "wangyu@hzxb.com"⟩ ∧
      (ValidateAndNormalizeUser latin1CaseTable (ValidateAndNormalizeUser latin1CaseTable
          ⟨str "Wang Yu", str "18237007777", str "wang·yu@hzxb.com"⟩ hzxb
          (fun _ => false)).1 hzxb (fun _ => false)).1.Username =
        (ValidateAndNormalizeUser latin1CaseTable
          ⟨str "Wang Yu", str "18237007777", str "wang·yu@hzxb.com"⟩ hzxb
          (fun _ => false)).1.Username ∧
      (ValidateAndNormalizeUser latin1CaseTable (ValidateAndNormalizeUser latin1CaseTable
          ⟨str "Wang Yu", str "18237007777", str "wang·yu@hzxb.com"⟩ hzxb
          (fun _ => false)).1 hzxb (fun _ => false)).1.Mail =
        (ValidateAndNormalizeUser latin1CaseTable
          ⟨str "Wang Yu", str "18237007777", str "wang·yu@hzxb.com"⟩ hzxb
          (fun _ => false)).1.Mail :=
  ⟨latin1CaseTable_lower, by decide,
    validateAndNormalizeUser_idempotent_on_empty_store latin1CaseTable
      ⟨str "Wang Yu", str "18237007777", str "wang·yu@hzxb.com"⟩ hzxb latin1CaseTable_lower⟩

theorem charCount_ascii (t : GoString) (h : ∀ b ∈ t, b.val < 0x80) :
    charCount t = t.length := by
  rw [charCount, runes_of_ascii t h, List.length_map]

theorem lastChars_ascii (n : Nat) (t : GoString) (h : ∀ b ∈ t, b.val < 0x80) :
    lastChars n t = t.drop (t.length - n) := by
  have hflat : ∀ u : GoString, (∀ b ∈ u, b.val < 0x80) →
      ((u.map fun b => b.val).map utf8.EncodeRune).flatten = u := by
    intro u
    induction u with
    | nil => intro _; rfl
    | cons c rest ih =>
      intro hu
      simp only [List.map_cons, List.flatten_cons]
      rw [encodeRune_ascii c (hu c (by simp)), ih fun b hb => hu b (by simp [hb])]
      rfl
  rw [lastChars, runes_of_ascii t h, List.length_map, ← List.map_drop]
  exact hflat _ fun b hb => h b (List.mem_of_mem_drop hb)

theorem getPhoneLast4Digits_eq (p : GoString) :
    (4 ≤ (strings.TrimSpace p).length →
        GetPhoneLast4Digits p =
          (strings.TrimSpace p).drop ((strings.TrimSpace p).length - 4)) ∧
      ((strings.TrimSpace p).length < 4 → GetPhoneLast4Digits p = []) := by
  unfold GetPhoneLast4Digits
  dsimp only
  constructor
  · intro h
    rw [if_neg (by omega)]
  · intro h
    rw [if_pos h]

/-- C15, as the code has it: with `t` the phone trimmed of surrounding whitespace,
`GetPhoneLast4Digits` is the last four bytes of `t`, unchecked, when `t` has at least four
bytes, and the empty string otherwise; when `t` is ASCII its bytes are its characters, so the
result is then the last four characters of `t` when `t` has at least four characters. -/
theorem getPhoneLast4Digits_last_four_bytes (p : GoString) :
    (4 ≤ (strings.TrimSpace p).length →
        GetPhoneLast4Digits p =
          (strings.TrimSpace p).drop ((strings.TrimSpace p).length - 4)) ∧
      ((strings.TrimSpace p).length < 4 → GetPhoneLast4Digits p = []) ∧
      ((∀ b ∈ strings.TrimSpace p, b.val < 0x80) →
        (4 ≤ charCount (strings.TrimSpace p) →
          GetPhoneLast4Digits p = lastChars 4 (strings.TrimSpace p)) ∧
        (charCount (strings.TrimSpace p) < 4 → GetPhoneLast4Digits p = [])) := by
  refine ⟨(getPhoneLast4Digits_eq p).1, (getPhoneLast4Digits_eq p).2, ?_⟩
  intro hascii
  rw [charCount_ascii _ hascii, lastChars_ascii 4 _ hascii]
  exact getPhoneLast4Digits_eq p

set_option maxRecDepth 8000 in
/-- C15, as the code has it, on the cases of the test-suite: `  18237009876  ` gives `9876`,
`1234` gives `1234`, `123` and the empty phone give the empty string. -/
theorem getPhoneLast4Digits_last_four_bytes_witness :
    (4 ≤ (strings.TrimSpace (str "  18237009876  ")).length ∧
        GetPhoneLast4Digits (str "  18237009876  ") = str "9876") ∧
      (4 ≤ (strings.TrimSpace (str "1234")).length ∧
        GetPhoneLast4Digits (str "1234") = str "1234") ∧
      ((strings.TrimSpace (str "123")).length < 4 ∧ GetPhoneLast4Digits (str "123") = []) ∧
      ((strings.TrimSpace []).length < 4 ∧ GetPhoneLast4Digits [] = []) ∧
      ((∀ b ∈ strings.TrimSpace (str "  18237009876  "), b.val < 0x80) ∧
        4 ≤ charCount (strings.TrimSpace (str "  18237009876  ")) ∧
        GetPhoneLast4Digits (str "  18237009876  ") =
          lastChars 4 (strings.TrimSpace (str "  18237009876  "))) :=
  ⟨⟨by decide, ((getPhoneLast4Digits_last_four_bytes (str "  18237009876  ")).1
      (by decide)).trans (by decide)⟩,
    ⟨by decide, ((getPhoneLast4Digits_last_four_bytes (str "1234")).1 (by decide)).trans
      (by decide)⟩,
    ⟨by decide, (getPhoneLast4Digits_last_four_bytes (str "123")).2.1 (by decide)⟩,
    ⟨by decide, (getPhoneLast4Digits_last_four_bytes []).2.1 (by decide)⟩,
    ⟨by decide, by decide,
      ((getPhoneLast4Digits_last_four_bytes (str "  18237009876  ")).2.2 (by decide)).1
        (by decide)⟩⟩

/-- C15 fails as stated on a phone written with full-width digits: `１２３４` has four
characters, yet the result is its last four bytes, not the whole phone; and `１２` has two
characters, yet the result is not empty. -/
theorem getPhoneLast4Digits_last_four_bytes_counterexample :
    (charCount (strings.TrimSpace (str "１２３４")) = 4 ∧
        lastChars 4 (strings.TrimSpace (str "１２３４")) = str "１２３４" ∧
        GetPhoneLast4Digits (str "１２３４") = [0x93, 0xEF, 0xBC, 0x94] ∧
        GetPhoneLast4Digits (str "１２３４") ≠ lastChars 4 (strings.TrimSpace (str "１２３４"))) ∧
      (charCount (strings.TrimSpace (str "１２")) = 2 ∧
        GetPhoneLast4Digits (str "１２") = [0x91, 0xEF, 0xBC, 0x92] ∧
        GetPhoneLast4Digits (str "１２") ≠ []) := by
  decide

/-- C16, as the code has it: a phone shorter than four bytes gives the empty string; a phone
whose trimmed form has at least four bytes gives the last four bytes of the trimmed form;
and a phone whose trimmed form is shorter than four bytes gives the empty string, however
long the phone itself is. -/
theorem getPhoneLast4Digits_length_of_trimmed (s : GoString) :
    (s.length < 4 → GetPhoneLast4Digits s = []) ∧
      (4 ≤ (strings.TrimSpace s).length →
        GetPhoneLast4Digits s =
          (strings.TrimSpace s).drop ((strings.TrimSpace s).length - 4)) ∧
      ((strings.TrimSpace s).length < 4 → GetPhoneLast4Digits s = []) := by
  refine ⟨?_, (getPhoneLast4Digits_eq s).1, (getPhoneLast4Digits_eq s).2⟩
  intro h
  exact (getPhoneLast4Digits_eq s).2 (Nat.lt_of_le_of_lt (strings.trimSpace_length s) h)

/-- C16, as the code has it, on phones of the test-suite and one padded with spaces. -/
theorem getPhoneLast4Digits_length_of_trimmed_witness :
    ((str "123").length < 4 ∧ GetPhoneLast4Digits (str "123") = []) ∧
      (4 ≤ (strings.TrimSpace (str "  18237009876  ")).length ∧
        GetPhoneLast4Digits (str "  18237009876  ") = str "9876") ∧
      ((strings.TrimSpace (str "  12  ")).length < 4 ∧
        GetPhoneLast4Digits (str "  12  ") = []) :=
  ⟨⟨by decide, (getPhoneLast4Digits_length_of_trimmed (str "123")).1 (by decide)⟩,
    ⟨by decide, ((getPhoneLast4Digits_length_of_trimmed (str "  18237009876  ")).2.1
      (by decide)).trans (by decide)⟩,
    ⟨by decide, (getPhoneLast4Digits_length_of_trimmed (str "  12  ")).2.2 (by decide)⟩⟩

/-- C16 fails as stated: `  12  ` has six bytes and six characters, its trimmed form is `12`,
whose last characters are `12`, yet the result is the empty string. -/
theorem getPhoneLast4Digits_length_of_trimmed_counterexample :
    4 ≤ (str "  12  ").length ∧ 4 ≤ charCount (str "  12  ") ∧
      strings.TrimSpace (str "  12  ") = str "12" ∧
      lastChars 4 (strings.TrimSpace (str "  12  ")) = str "12" ∧
      GetPhoneLast4Digits (str "  12  ") = [] ∧
      GetPhoneLast4Digits (str "  12  ") ≠ lastChars 4 (strings.TrimSpace (str "  12  ")) := by
  decide

end tools
